import Mathlib

/-!
Verification of the screen compositor (`src/textual/_compositor.py`).

The compositor source is shallowly embedded below.  The geometry primitives
(`Offset`, `Size`, `Region`, `Spacing`), the `Strip` type and the widget
contract live in repository modules that are not part of the provided
source tree; those are modelled from the specification's data-model and
external-interface sections and are marked `Modelled from the spec:` in
their doc comments.  Everything in the `Compositor` namespace is translated
directly from `_compositor.py`.
-/

/-- Modelled from the spec: `Offset` = `(x, y)` signed integer cell coordinates
(geometry module, not in the provided sources). -/
structure Offset where
  x : Int
  y : Int
deriving DecidableEq

/-- Modelled from the spec: `Size` = `(width, height)` integers
(geometry module, not in the provided sources). -/
structure Size where
  width : Int
  height : Int
deriving DecidableEq

/-- Modelled from the spec: `Region` = `(x, y, width, height)`
(geometry module, not in the provided sources). -/
structure Region where
  x : Int
  y : Int
  width : Int
  height : Int
deriving DecidableEq

/-- Modelled from the spec: spacing `(top, right, bottom, left)` used for
gutters and margins (geometry module, not in the provided sources). -/
structure Spacing where
  top : Int
  right : Int
  bottom : Int
  left : Int
deriving DecidableEq

namespace Offset

/-- Pointwise subtraction of offsets. -/
def sub (a b : Offset) : Offset := ⟨a.x - b.x, a.y - b.y⟩

end Offset

namespace Region

/-- The exclusive right edge `x + width`. -/
def right (r : Region) : Int := r.x + r.width

/-- The exclusive bottom edge `y + height`. -/
def bottom (r : Region) : Int := r.y + r.height

/-- The size `(width, height)` of a region. -/
def size (r : Region) : Size := ⟨r.width, r.height⟩

/-- The origin `(x, y)` of a region. -/
def offset (r : Region) : Offset := ⟨r.x, r.y⟩

/-- Python truthiness of a region: both dimensions non-zero. -/
def isTrue (r : Region) : Bool := r.width ≠ 0 && r.height ≠ 0

/-- Membership of a cell in a region (half-open on the right and bottom). -/
def containsPt (r : Region) (px py : Int) : Bool :=
  r.x ≤ px && px < r.x + r.width && r.y ≤ py && py < r.y + r.height

/-- Modelled from the spec: region intersection (set intersection of cells);
degenerate results are clamped to zero size as in the geometry module. -/
def intersection (r s : Region) : Region :=
  let x1 := max r.x s.x
  let y1 := max r.y s.y
  let x2 := min r.right s.right
  let y2 := min r.bottom s.bottom
  ⟨x1, y1, max 0 (x2 - x1), max 0 (y2 - y1)⟩

/-- Modelled from the spec: two regions overlap when their intersection is
non-empty. -/
def overlaps (r s : Region) : Bool :=
  max r.x s.x < min r.right s.right && max r.y s.y < min r.bottom s.bottom

/-- Modelled from the spec: `r.containsRegion s` holds when `s` lies entirely
inside `r` (the Python `in` operator on regions). -/
def containsRegion (r s : Region) : Bool :=
  r.x ≤ s.x && r.y ≤ s.y && s.right ≤ r.right && s.bottom ≤ r.bottom

/-- Modelled from the spec: bounding union of two regions. -/
def union (r s : Region) : Region :=
  let x1 := min r.x s.x
  let y1 := min r.y s.y
  let x2 := max r.right s.right
  let y2 := max r.bottom s.bottom
  ⟨x1, y1, x2 - x1, y2 - y1⟩

/-- Modelled from the spec: shrink a region by a spacing (gutter). -/
def shrink (r : Region) (s : Spacing) : Region :=
  ⟨r.x + s.left, r.y + s.top, r.width - (s.left + s.right), r.height - (s.top + s.bottom)⟩

/-- Modelled from the spec: grow a region by a spacing (margin). -/
def grow (r : Region) (s : Spacing) : Region :=
  ⟨r.x - s.left, r.y - s.top, r.width + (s.left + s.right), r.height + (s.top + s.bottom)⟩

/-- Modelled from the spec: translate a region by an offset (`region + offset`). -/
def translate (r : Region) (o : Offset) : Region :=
  ⟨r.x + o.x, r.y + o.y, r.width, r.height⟩

/-- Modelled from the spec: the same size with the origin reset to `(0, 0)`. -/
def resetOffset (r : Region) : Region := ⟨0, 0, r.width, r.height⟩

/-- Modelled from the spec: `Region.from_union`, the bounding region of a
collection of regions (used to crop partial updates). -/
def fromUnion : List Region → Region
  | [] => ⟨0, 0, 0, 0⟩
  | r :: rest => rest.foldl union r

end Region

namespace Size

/-- Modelled from the spec: `size.region`, the region at the origin with this
size. -/
def region (s : Size) : Region := ⟨0, 0, s.width, s.height⟩

end Size

namespace Spacing

/-- Componentwise addition of spacings (`margin + scroll_spacing`). -/
def add (a b : Spacing) : Spacing :=
  ⟨a.top + b.top, a.right + b.right, a.bottom + b.bottom, a.left + b.left⟩

end Spacing

/-- The painting-order key: a tuple of `(layer_index, z, layer_order)` triples. -/
abbrev OrderT := List (Nat × Int × Int)

/-- `MapGeometry` from `_compositor.py`: the absolute location of a widget. -/
structure MapGeometry where
  region : Region
  order : OrderT
  clip : Region
  virtualSize : Size
  containerSize : Size
  virtualRegion : Region
deriving DecidableEq

/-- The composition map, keyed by widget identity (modelled as `Nat` handles,
matching the spec's note that widgets are keyed by identity). -/
abbrev CMap := List (Nat × MapGeometry)

/-- Python `dict` assignment `map[k] = v`: update in place when the key is
present, otherwise append. -/
def insertMap (m : CMap) (k : Nat) (v : MapGeometry) : CMap :=
  if m.any (fun p => p.1 == k) then m.map (fun p => if p.1 == k then (k, v) else p)
  else m ++ [(k, v)]

/-- The key list of a composition map. -/
def mapKeys (m : CMap) : List Nat := m.map (·.1)

/-- Dictionary lookup by key. -/
def lookupMap (m : CMap) (k : Nat) : Option MapGeometry :=
  (m.find? (fun p => p.1 == k)).map (·.2)

/-- Python `set.add`: insert a handle if not already present. -/
def addSet (s : List Nat) (k : Nat) : List Nat := if k ∈ s then s else s ++ [k]

/-- Symmetric difference of two item lists (`map.items() ^ old_map.items()`).
Membership is decidable value equality, as for Python tuples. -/
def itemsSymmDiff (l1 l2 : List (Nat × MapGeometry)) : List (Nat × MapGeometry) :=
  l1.filter (fun p => p ∉ l2) ++ l2.filter (fun p => p ∉ l1)

/-- Python `set.update` on a set of regions. -/
def addRegions (s : List Region) (l : List Region) : List Region :=
  l.foldl (fun acc r => if r ∈ acc then acc else acc ++ [r]) s

/-- Widget data consumed by the compositor through the external widget
contract.  Modelled from the spec: styling lookups (`visibility`, `offset`,
`gutter`), classification (`is_scrollable`, `is_container`, enabled
scrollbars, declared layers), and arrangement results; black-box calls are
modelled as stored data. -/
structure WData where
  wid : Nat
  /-- `styles.get_rule("visibility")`: `none` when unset, otherwise whether the
  rule equals `"visible"`. -/
  visibility : Option Bool
  /-- Truthiness of `styles.offset`. -/
  hasOffset : Bool
  /-- `styles.offset.resolve(region.size, clip.size)`, modelled as a constant. -/
  offsetVal : Offset
  /-- `styles.gutter`. -/
  gutter : Spacing
  isScrollable : Bool
  isContainer : Bool
  /-- Modelled from the spec: `_get_scrollable_region` subtracts the scrollbar
  gutters from the container region. -/
  scrollbarSpace : Spacing
  scrollOffset : Offset
  /-- `widget.layers`: the declared layer names (names as handles). -/
  layerNames : List Nat
  /-- `widget.layer`: this widget's own layer name. -/
  selfLayer : Nat
  /-- `widget.scrollbars_enabled` (horizontal, vertical). -/
  hScrollbar : Bool
  vScrollbar : Bool
  /-- Modelled from the spec: `_arrange_scrollbars(container_region)` yields
  chrome widgets and regions; stored container-relative. -/
  chrome : List (Nat × Region)
  /-- `arrange_result.total_region`. -/
  extraTotal : Region
  /-- `arrange_result.scroll_spacing`. -/
  scrollSpacing : Spacing
deriving DecidableEq

mutual
/-- Modelled from the spec: a widget together with the placements its
`_arrange` call reports (each placement: sub-region, margin, child widget, z,
fixed). -/
inductive WTree : Type where
  | node (data : WData) (placements : PlcList) : WTree

/-- The placement list of a container's arrangement. -/
inductive PlcList : Type where
  | nil : PlcList
  | cons (subRegion : Region) (margin : Spacing) (subWidget : WTree) (z : Int)
      (fixed : Bool) (rest : PlcList) : PlcList
end

/-- The data record of a widget node. -/
def WTree.data : WTree → WData
  | .node d _ => d

/-- The placement list of a widget node. -/
def WTree.placements : WTree → PlcList
  | .node _ p => p

/-- `arrange_result.widgets`: the widgets of the arrangement's placements. -/
def plcWids : PlcList → List Nat
  | .nil => []
  | .cons _ _ w _ _ rest => w.data.wid :: plcWids rest

/-- `layers_to_index.get(sub_widget.layer, 0)`: index of a layer name in the
declared layer list (last duplicate wins, as in a Python dict comprehension),
defaulting to `0`. -/
def layerIndex (names : List Nat) (nm : Nat) : Nat :=
  (names.enum.foldl (fun acc p => if p.2 == nm then some p.1 else acc) none).getD 0

mutual
/-- `add_widget` from `Compositor._arrange_root`: recursively place a widget
and its children into the composition map.  The accumulator carries the map
and the `widgets` set. -/
def addWidget (visibleOnly : Bool) (w : WTree) (virtualRegion region : Region)
    (order : OrderT) (layerOrder : Int) (clip : Region) (visible0 : Bool)
    (acc : CMap × List Nat) : CMap × List Nat :=
  match w with
  | .node d plcs =>
    let visible := d.visibility.getD visible0
    let acc := if visible then (acc.1, addSet acc.2 d.wid) else acc
    let layoutOffset : Offset := if d.hasOffset then d.offsetVal else ⟨0, 0⟩
    let containerRegion := (region.shrink d.gutter).translate layoutOffset
    let containerSize := containerRegion.size
    if d.isScrollable then
      let childRegion := containerRegion.shrink d.scrollbarSpace
      let subClip := clip.intersection childRegion
      let totalRegion0 := childRegion.resetOffset
      let st :=
        if d.isContainer then
          let acc1 := (acc.1, (plcWids plcs).foldl addSet acc.2)
          let total1 := totalRegion0.union d.extraTotal
          let viewport := containerSize.region.translate d.scrollOffset
          let placementOffset := containerRegion.offset
          let placementScrollOffset := placementOffset.sub d.scrollOffset
          placeLoop visibleOnly plcs viewport order layerOrder subClip visible
            placementOffset placementScrollOffset d.layerNames d.scrollSpacing acc1 total1
        else (acc, totalRegion0, layerOrder)
      let acc2 := st.1
      let totalRegion := st.2.1
      if visible then
        let m1 :=
          if d.hScrollbar || d.vScrollbar then
            d.chrome.foldl
              (fun m cw =>
                insertMap m cw.1
                  ⟨cw.2.translate containerRegion.offset, order, clip, containerSize,
                    containerSize, cw.2.translate containerRegion.offset⟩)
              acc2.1
          else acc2.1
        (insertMap m1 d.wid
          ⟨region.translate layoutOffset, order, clip, totalRegion.size, containerSize,
            virtualRegion⟩,
          acc2.2)
      else acc2
    else if visible then
      (insertMap acc.1 d.wid
        ⟨region.translate layoutOffset, order, clip, region.size, containerSize, virtualRegion⟩,
        acc.2)
    else acc

/-- The placement loop of `add_widget`: the source iterates
`reversed(placements)` decrementing `layer_order`; this recursion processes
the tail first, which visits the same placements in the same (reversed)
order with the same `layer_order` values.  When `visible_only` is set,
placements not overlapping the viewport are skipped
(`get_visible_placements`, modelled from the spec as an overlap filter).
Returns the accumulator, the running `total_region` and the final
`layer_order`. -/
def placeLoop (visibleOnly : Bool) (plcs : PlcList) (viewport : Region) (order : OrderT)
    (layerOrder : Int) (subClip : Region) (visible : Bool)
    (placementOffset placementScrollOffset : Offset) (layerNames : List Nat)
    (scrollSpacing : Spacing) (acc : CMap × List Nat) (total : Region) :
    (CMap × List Nat) × Region × Int :=
  match plcs with
  | .nil => (acc, total, layerOrder)
  | .cons subRegion margin subWidget z fixed rest =>
    let st := placeLoop visibleOnly rest viewport order layerOrder subClip visible
      placementOffset placementScrollOffset layerNames scrollSpacing acc total
    if visibleOnly && !(subRegion.overlaps viewport) then st
    else
      let acc1 := st.1
      let total1 := st.2.1
      let lo := st.2.2
      let li := layerIndex layerNames subWidget.data.selfLayer
      let total2 :=
        if fixed then total1
        else total1.union (subRegion.grow (if li ≠ 0 then margin else margin.add scrollSpacing))
      let widgetRegion :=
        if fixed then subRegion.translate placementOffset
        else subRegion.translate placementScrollOffset
      let widgetOrder := order ++ [(li, z, lo)]
      let acc2 := addWidget visibleOnly subWidget subRegion widgetRegion widgetOrder lo subClip
        visible acc1
      (acc2, total2, lo - 1)
end

/-- `Compositor._arrange_root`: place the root widget over the whole screen
region. -/
def arrangeRoot (visibleOnly : Bool) (root : WTree) (size : Size) : CMap × List Nat :=
  addWidget visibleOnly root size.region size.region [(0, 0, 0)] 0 size.region true ([], [])

/-- `ReflowResult` from `_compositor.py`. -/
structure ReflowResult where
  hidden : List Nat
  shown : List Nat
  resized : List Nat
deriving DecidableEq

/-- The compositor state (`Compositor.__init__`).  The lazily derived caches
(`_cuts`, `_layers`, `_layers_visible`, `_visible_widgets`) are modelled by
recomputation from this state, so clearing them has no explicit
counterpart. -/
structure CState where
  full_map : CMap
  full_map_invalidated : Bool
  visible_map : Option CMap
  widgets : List Nat
  root : Option WTree
  size : Size
  dirty_regions : List Region

/-- The freshly constructed compositor. -/
def initCState : CState :=
  { full_map := [], full_map_invalidated := true, visible_map := none, widgets := [],
    root := none, size := ⟨0, 0⟩, dirty_regions := [] }

/-- `Compositor.reflow`: lay out the tree, replace the full map and the
`widgets` set, mark dirty regions and report the diff. -/
def reflow (c : CState) (parent : WTree) (size : Size) : CState × ReflowResult :=
  let c1 := { c with visible_map := none, root := some parent, size := size }
  let old_map := c1.full_map
  let old_widgets := mapKeys old_map
  let arranged := arrangeRoot true parent size
  let map := arranged.1
  let widgets := arranged.2
  let new_widgets := mapKeys map
  let c2 := { c1 with full_map := map, widgets := widgets }
  let changes := itemsSymmDiff map old_map
  let screenRegion := size.region
  let c3 :=
    if screenRegion ∈ c2.dirty_regions then c2
    else
      { c2 with
        dirty_regions :=
          addRegions c2.dirty_regions
            (changes.filterMap
              (fun p =>
                let r := p.2.clip.intersection p.2.region
                if r.isTrue then some r else none)) }
  let resized :=
    ((changes.filter
          (fun p =>
            decide (p.1 ∈ old_widgets) && decide (p.1 ∈ new_widgets) &&
              ((lookupMap old_map p.1).map (fun g => g.region.size) != some p.2.region.size))).map
        (·.1)).dedup
  let shown := new_widgets.filter (fun k => k ∉ old_widgets)
  -- the source computes `self.widgets - widgets` after `self.widgets = widgets`
  let hidden := c2.widgets.filter (fun k => k ∉ widgets)
  (c3, ⟨hidden, shown, resized⟩)

/-- `Compositor.reflow_visible`: the fast scroll path.  Rebuilds a
visible-only map and flags the full map stale. -/
def reflowVisible (c : CState) (parent : WTree) (size : Size) : CState × List Nat :=
  let c1 := { c with full_map_invalidated := true, root := some parent, size := size }
  let old_map := c1.visible_map.getD c1.full_map
  let arranged := arrangeRoot true parent size
  let map := arranged.1
  let widgets := arranged.2
  let c2 := { c1 with visible_map := some map, widgets := widgets }
  let exposed := (mapKeys map).filter (fun k => k ∉ mapKeys old_map)
  let changes := itemsSymmDiff map old_map
  let c3 :=
    if size.region ∈ c2.dirty_regions then c2
    else
      { c2 with
        dirty_regions :=
          addRegions c2.dirty_regions
            (changes.filterMap
              (fun p =>
                let r := p.2.clip.intersection p.2.region
                if r.isTrue then some r else none)) }
  (c3, exposed)

/-- The `Compositor.full_map` property: rebuild the full map when it is
flagged stale, otherwise return the stored map.  Returns the (possibly
updated) state together with the map. -/
def fullMapAccess (c : CState) : CState × CMap :=
  match c.root with
  | none => (c, [])
  | some root =>
    if c.full_map_invalidated then
      let arranged := arrangeRoot false root c.size
      ({ c with full_map_invalidated := false, full_map := arranged.1, visible_map := none },
        arranged.1)
    else (c, c.full_map)

/-- A leaf widget with neutral styling, used by concrete scenarios. -/
def leafW (wid : Nat) : WTree :=
  .node
    { wid := wid, visibility := none, hasOffset := false, offsetVal := ⟨0, 0⟩,
      gutter := ⟨0, 0, 0, 0⟩, isScrollable := false, isContainer := false,
      scrollbarSpace := ⟨0, 0, 0, 0⟩, scrollOffset := ⟨0, 0⟩, layerNames := [], selfLayer := 0,
      hScrollbar := false, vScrollbar := false, chrome := [], extraTotal := ⟨0, 0, 0, 0⟩,
      scrollSpacing := ⟨0, 0, 0, 0⟩ }
    .nil

/-- A scrollable (non-container) widget with a horizontal scrollbar whose
chrome widget has handle `5`. -/
def scrollW : WTree :=
  .node
    { wid := 0, visibility := none, hasOffset := false, offsetVal := ⟨0, 0⟩,
      gutter := ⟨0, 0, 0, 0⟩, isScrollable := true, isContainer := false,
      scrollbarSpace := ⟨0, 0, 0, 0⟩, scrollOffset := ⟨0, 0⟩, layerNames := [], selfLayer := 0,
      hScrollbar := true, vScrollbar := false, chrome := [(5, ⟨0, 0, 1, 1⟩)],
      extraTotal := ⟨0, 0, 0, 0⟩, scrollSpacing := ⟨0, 0, 0, 0⟩ }
    .nil

/-- A scrollable container whose only child (handle `7`) is placed at
`(100, 100, 1, 1)`, far outside the `(0, 0, 3, 2)` viewport, so the
visible-only arrangement omits it while the full arrangement keeps it. -/
def contW : WTree :=
  .node
    { wid := 0, visibility := none, hasOffset := false, offsetVal := ⟨0, 0⟩,
      gutter := ⟨0, 0, 0, 0⟩, isScrollable := true, isContainer := true,
      scrollbarSpace := ⟨0, 0, 0, 0⟩, scrollOffset := ⟨0, 0⟩, layerNames := [], selfLayer := 0,
      hScrollbar := false, vScrollbar := false, chrome := [], extraTotal := ⟨0, 0, 0, 0⟩,
      scrollSpacing := ⟨0, 0, 0, 0⟩ }
    (.cons ⟨100, 100, 1, 1⟩ ⟨0, 0, 0, 0⟩ (leafW 7) 0 false .nil)

/-- A compositor state whose full map holds widget `1`, as left by a previous
layout. -/
def preState : CState :=
  { full_map := [(1, ⟨⟨0, 0, 1, 1⟩, [(0, 0, 0)], ⟨0, 0, 3, 2⟩, ⟨1, 1⟩, ⟨1, 1⟩, ⟨0, 0, 1, 1⟩⟩)],
    full_map_invalidated := true, visible_map := none, widgets := [1], root := none,
    size := ⟨3, 2⟩, dirty_regions := [] }

/-- C1: the claim states `hidden = old keys − new keys`.  The source computes
`hidden_widgets = self.widgets - widgets` after having just assigned
`self.widgets = widgets`, so the reported `hidden` set is empty on every
call; in particular it is empty for a reflow that drops widget `1` from the
map, where the claimed diff is `{1}`. -/
theorem C1_reflow_hidden_bug :
    (∀ (c : CState) (parent : WTree) (size : Size), (reflow c parent size).2.hidden = []) ∧
      1 ∈ mapKeys preState.full_map ∧
      1 ∉ mapKeys ((reflow preState (leafW 0) ⟨3, 2⟩).1.full_map) ∧
      (reflow preState (leafW 0) ⟨3, 2⟩).2.hidden = [] := by
  refine ⟨fun c parent size => ?_, by decide, by decide, by decide⟩
  simp [reflow]

/-- C4 counterexample: in the map built for `scrollW`, the scrollbar chrome
widget `5` and its owning container `0` are distinct widgets with the same
`order` tuple `((0, 0, 0),)`. -/
theorem C4_chrome_shares_order_cex :
    (lookupMap (reflow initCState scrollW ⟨3, 2⟩).1.full_map 5).map (·.order) =
        some [(0, 0, 0)] ∧
      (lookupMap (reflow initCState scrollW ⟨3, 2⟩).1.full_map 0).map (·.order) =
        some [(0, 0, 0)] ∧
      (5 : Nat) ≠ 0 := by
  refine ⟨by decide, by decide, by decide⟩

/-- C5: after a reflow of `scrollW`, the chrome widget `5` is a key of the
composition map but not a member of the stored `widgets` set, so
`widgets ⊇ map.keys()` fails; the source's own comment asserts the superset
property. -/
theorem C5_chrome_missing_from_widgets :
    5 ∈ mapKeys (reflow initCState scrollW ⟨3, 2⟩).1.full_map ∧
      5 ∉ (reflow initCState scrollW ⟨3, 2⟩).1.widgets := by
  refine ⟨by decide, by decide⟩

/-- C6 counterexample: `reflow` never clears `_full_map_invalidated` (true
since construction), so the very next `full_map` access rebuilds with
`visible_only=False` and — for `contW`, whose child is outside the viewport —
returns a map different from the one the reflow just computed. -/
theorem C6_full_map_rebuilds_after_reflow_cex :
    (reflow initCState contW ⟨3, 2⟩).1.full_map_invalidated = true ∧
      (fullMapAccess (reflow initCState contW ⟨3, 2⟩).1).2 ≠
        (reflow initCState contW ⟨3, 2⟩).1.full_map := by
  refine ⟨by decide, by decide⟩

/-- A compositor state in the laid-out configuration: the full-map staleness
flag is clear. -/
def cLaid : CState :=
  { full_map := [(1, ⟨⟨0, 0, 1, 1⟩, [(0, 0, 0)], ⟨0, 0, 3, 2⟩, ⟨1, 1⟩, ⟨1, 1⟩, ⟨0, 0, 1, 1⟩⟩)],
    full_map_invalidated := false, visible_map := none, widgets := [1],
    root := some (leafW 1), size := ⟨3, 2⟩, dirty_regions := [] }

/-- C6 amended: `reflow` leaves `_full_map_invalidated` unchanged (it never
clears it), so a subsequent `full_map` access returns the stored map without
a rebuild only when the flag was already clear before the reflow; an access
while the flag is set rebuilds the map with the full (`visible_only=False`)
arrangement and clears the flag. -/
theorem C6_full_map_laziness_amended (c : CState) (parent : WTree) (size : Size)
    (c' : CState) (r : WTree) :
    ((reflow c parent size).1.full_map_invalidated = c.full_map_invalidated ∧
        (reflow c parent size).1.root = some parent) ∧
      (c'.full_map_invalidated = false → c'.root = some r →
        fullMapAccess c' = (c', c'.full_map)) ∧
      (c'.full_map_invalidated = true → c'.root = some r →
        (fullMapAccess c').2 = (arrangeRoot false r c'.size).1 ∧
          (fullMapAccess c').1.full_map_invalidated = false) := by
  refine ⟨⟨?_, ?_⟩, ?_, ?_⟩
  · simp only [reflow]
    split <;> rfl
  · simp only [reflow]
    split <;> rfl
  · intro hflag hroot
    simp [fullMapAccess, hflag, hroot]
  · intro hflag hroot
    simp [fullMapAccess, hflag, hroot]

/-- Witness for C6: the amended theorem applied at concrete states — a
laid-out state with the flag clear returns its stored map unchanged, and the
stale state left by `reflow` from a fresh compositor rebuilds and clears the
flag. -/
theorem C6_full_map_laziness_amended_witness :
    fullMapAccess cLaid = (cLaid, cLaid.full_map) ∧
      (fullMapAccess (reflow initCState contW ⟨3, 2⟩).1).1.full_map_invalidated = false := by
  obtain ⟨⟨hflag, hroot⟩, -, hstale⟩ :=
    C6_full_map_laziness_amended initCState contW ⟨3, 2⟩ (reflow initCState contW ⟨3, 2⟩).1 contW
  refine ⟨(C6_full_map_laziness_amended cLaid contW ⟨3, 2⟩ cLaid (leafW 1)).2.1 rfl rfl, ?_⟩
  exact (hstale (by rw [hflag]; rfl) hroot).2

/-- The per-row interval list built by `_regions_to_spans`: for each region
covering row `y` (in input order) the span `(x, x + width)`. -/
def spansAt (regions : List Region) (y : Int) : List (Int × Int) :=
  regions.filterMap
    (fun r => if r.y ≤ y ∧ y < r.y + r.height then some (r.x, r.x + r.width) else none)

/-- The rows covered by a region (`range(region_y, region_y + height)`). -/
def rowsOf (r : Region) : List Int :=
  (List.range r.height.toNat).map (fun (i : Nat) => r.y + (i : Int))

/-- The keys of `inline_ranges`, sorted ascending (`sorted(... .items())`). -/
def sortedRows (regions : List Region) : List Int :=
  List.insertionSort (· ≤ ·) ((regions.map rowsOf).flatten).dedup

/-- Python tuple comparison on `(x1, x2)` interval pairs. -/
def pairLE : (Int × Int) → (Int × Int) → Prop := fun a b =>
  a.1 < b.1 ∨ (a.1 = b.1 ∧ a.2 ≤ b.2)

instance : DecidableRel pairLE := fun a b => by unfold pairLE; infer_instance

instance : IsTotal (Int × Int) pairLE := ⟨by intro a b; unfold pairLE; omega⟩

instance : IsTrans (Int × Int) pairLE := ⟨by intro a b c; unfold pairLE; omega⟩

/-- The merge loop of `_regions_to_spans`: the running span `(x1, x2)` absorbs
the next interval when its left edge is `≤ x2`, extending the right edge as
needed; otherwise the running span is emitted and the next interval starts a
new one. -/
def mergeSpans (cur : Int × Int) : List (Int × Int) → List (Int × Int)
  | [] => [cur]
  | (nx1, nx2) :: rest =>
    if nx1 ≤ cur.2 then
      if nx2 > cur.2 then mergeSpans (cur.1, nx2) rest else mergeSpans cur rest
    else cur :: mergeSpans (nx1, nx2) rest

/-- One row of `_regions_to_spans`: a single interval is yielded as is;
otherwise the intervals are sorted and merged. -/
def rowSpans (ranges : List (Int × Int)) : List (Int × Int) :=
  match ranges with
  | [] => []
  | [r] => [r]
  | r :: rest =>
    match List.insertionSort pairLE (r :: rest) with
    | [] => []
    | s :: srest => mergeSpans s srest

/-- `Compositor._regions_to_spans`: rows ascending, merged spans per row. -/
def regionsToSpans (regions : List Region) : List (Int × Int × Int) :=
  (sortedRows regions).flatMap
    (fun y => (rowSpans (spansAt regions y)).map (fun p => (y, p.1, p.2)))

/-- A cell `(x, y)` is inside one of the emitted spans. -/
def inSpans (spans : List (Int × Int × Int)) (x y : Int) : Prop :=
  ∃ s ∈ spans, s.1 = y ∧ s.2.1 ≤ x ∧ x < s.2.2

/-- A cell `(x, y)` is inside one of the input regions. -/
def inRegions (regions : List Region) (x y : Int) : Prop :=
  ∃ r ∈ regions, r.x ≤ x ∧ x < r.x + r.width ∧ r.y ≤ y ∧ y < r.y + r.height

/-- Every span that `mergeSpans` emits has a left edge at least the running
span's left edge, when the remaining intervals are sorted by left edge and
all lie to the right of it. -/
theorem mergeSpans_left_le (l : List (Int × Int)) :
    ∀ cur : Int × Int, l.Pairwise (fun p q => p.1 ≤ q.1) → (∀ p ∈ l, cur.1 ≤ p.1) →
      ∀ t ∈ mergeSpans cur l, cur.1 ≤ t.1 := by
  induction l with
  | nil =>
    intro cur _ _ t ht
    simp only [mergeSpans, List.mem_singleton] at ht
    subst ht; exact le_refl _
  | cons p rest ih =>
    obtain ⟨nx1, nx2⟩ := p
    intro cur hsort h t ht
    simp only [mergeSpans] at ht
    split_ifs at ht with h1 h2
    · exact ih (cur.1, nx2) hsort.of_cons (fun q hq => h q (List.mem_cons_of_mem _ hq)) t ht
    · exact ih cur hsort.of_cons (fun q hq => h q (List.mem_cons_of_mem _ hq)) t ht
    · rcases List.mem_cons.mp ht with rfl | ht
      · exact le_refl _
      · have hn : cur.1 ≤ nx1 := h (nx1, nx2) (List.mem_cons_self _ _)
        have hrest : ∀ q ∈ rest, nx1 ≤ q.1 := fun q hq =>
          (List.pairwise_cons.mp hsort).1 q hq
        exact le_trans hn (ih (nx1, nx2) hsort.of_cons hrest t ht)

/-- The spans emitted by `mergeSpans` are pairwise separated: each earlier
span ends strictly before a later one begins. -/
theorem mergeSpans_pairwise (l : List (Int × Int)) :
    ∀ cur : Int × Int, l.Pairwise (fun p q => p.1 ≤ q.1) → (∀ p ∈ l, cur.1 ≤ p.1) →
      (mergeSpans cur l).Pairwise (fun s t => s.2 < t.1) := by
  induction l with
  | nil => intro cur _ _; simp [mergeSpans]
  | cons p rest ih =>
    obtain ⟨nx1, nx2⟩ := p
    intro cur hsort h
    simp only [mergeSpans]
    split_ifs with h1 h2
    · exact ih (cur.1, nx2) hsort.of_cons (fun q hq => h q (List.mem_cons_of_mem _ hq))
    · exact ih cur hsort.of_cons (fun q hq => h q (List.mem_cons_of_mem _ hq))
    · have hrest : ∀ q ∈ rest, nx1 ≤ q.1 := fun q hq => (List.pairwise_cons.mp hsort).1 q hq
      refine List.pairwise_cons.mpr ⟨fun t ht => ?_, ih (nx1, nx2) hsort.of_cons hrest⟩
      have := mergeSpans_left_le rest (nx1, nx2) hsort.of_cons hrest t ht
      omega

/-- `mergeSpans` preserves the union of covered cells. -/
theorem mergeSpans_mem_iff (l : List (Int × Int)) :
    ∀ cur : Int × Int, l.Pairwise (fun p q => p.1 ≤ q.1) → (∀ p ∈ l, cur.1 ≤ p.1) →
      ∀ x : Int,
        (∃ s ∈ mergeSpans cur l, s.1 ≤ x ∧ x < s.2) ↔
          (cur.1 ≤ x ∧ x < cur.2) ∨ ∃ p ∈ l, p.1 ≤ x ∧ x < p.2 := by
  induction l with
  | nil => intro cur _ _ x; simp [mergeSpans]
  | cons p rest ih =>
    obtain ⟨nx1, nx2⟩ := p
    intro cur hsort h x
    have hn : cur.1 ≤ nx1 := h (nx1, nx2) (List.mem_cons_self _ _)
    have hrest : ∀ q ∈ rest, nx1 ≤ q.1 := fun q hq => (List.pairwise_cons.mp hsort).1 q hq
    have htail : ∀ q ∈ rest, cur.1 ≤ q.1 := fun q hq => h q (List.mem_cons_of_mem _ hq)
    simp only [mergeSpans]
    split_ifs with h1 h2
    · rw [ih (cur.1, nx2) hsort.of_cons htail x]
      simp only [List.mem_cons]
      constructor
      · rintro (⟨hx1, hx2⟩ | ⟨q, hq, hqx⟩)
        · by_cases hc : x < cur.2
          · exact Or.inl ⟨hx1, hc⟩
          · exact Or.inr ⟨(nx1, nx2), Or.inl rfl, by omega⟩
        · exact Or.inr ⟨q, Or.inr hq, hqx⟩
      · rintro (⟨hx1, hx2⟩ | ⟨q, rfl | hq, hqx⟩)
        · exact Or.inl ⟨hx1, by omega⟩
        · exact Or.inl ⟨by omega, by omega⟩
        · exact Or.inr ⟨q, hq, hqx⟩
    · rw [ih cur hsort.of_cons htail x]
      simp only [List.mem_cons]
      constructor
      · rintro (⟨hx1, hx2⟩ | ⟨q, hq, hqx⟩)
        · exact Or.inl ⟨hx1, hx2⟩
        · exact Or.inr ⟨q, Or.inr hq, hqx⟩
      · rintro (⟨hx1, hx2⟩ | ⟨q, rfl | hq, hqx⟩)
        · exact Or.inl ⟨hx1, hx2⟩
        · exact Or.inl ⟨by omega, by omega⟩
        · exact Or.inr ⟨q, hq, hqx⟩
    · simp only [List.mem_cons]
      constructor
      · rintro ⟨s, rfl | hs, hsx⟩
        · exact Or.inl hsx
        · rcases (ih (nx1, nx2) hsort.of_cons hrest x).mp ⟨s, hs, hsx⟩ with hc | ⟨q, hq, hqx⟩
          · exact Or.inr ⟨(nx1, nx2), Or.inl rfl, hc⟩
          · exact Or.inr ⟨q, Or.inr hq, hqx⟩
      · rintro (hc | ⟨q, rfl | hq, hqx⟩)
        · exact ⟨cur, Or.inl rfl, hc⟩
        · obtain ⟨s, hs, hsx⟩ := (ih (nx1, nx2) hsort.of_cons hrest x).mpr (Or.inl hqx)
          exact ⟨s, Or.inr hs, hsx⟩
        · obtain ⟨s, hs, hsx⟩ := (ih (nx1, nx2) hsort.of_cons hrest x).mpr (Or.inr ⟨q, hq, hqx⟩)
          exact ⟨s, Or.inr hs, hsx⟩

/-- The first span of `mergeSpans` starts at the running span's left edge and
ends no earlier than its right edge. -/
theorem mergeSpans_head (l : List (Int × Int)) :
    ∀ cur : Int × Int, ∃ e, (mergeSpans cur l).head? = some (cur.1, e) ∧ cur.2 ≤ e := by
  induction l with
  | nil => intro cur; exact ⟨cur.2, rfl, le_refl _⟩
  | cons p rest ih =>
    obtain ⟨nx1, nx2⟩ := p
    intro cur
    simp only [mergeSpans]
    split_ifs with h1 h2
    · obtain ⟨e, he, hce⟩ := ih (cur.1, nx2)
      exact ⟨e, he, by omega⟩
    · exact ih cur
    · exact ⟨cur.2, rfl, le_refl _⟩

/-- The tuple-sorted interval list is sorted by left edges. -/
theorem sorted_pairLE (l : List (Int × Int)) :
    (List.insertionSort pairLE l).Pairwise (fun p q => p.1 ≤ q.1) :=
  (List.sorted_insertionSort pairLE l).imp (fun h => by unfold pairLE at h; omega)

/-- The spans of one row are pairwise separated. -/
theorem rowSpans_pairwise (ranges : List (Int × Int)) :
    (rowSpans ranges).Pairwise (fun s t => s.2 < t.1) := by
  match ranges with
  | [] => simp [rowSpans]
  | [r] => simp [rowSpans]
  | r :: r2 :: rest =>
    have hsorted := sorted_pairLE (r :: r2 :: rest)
    simp only [rowSpans]
    cases hs : List.insertionSort pairLE (r :: r2 :: rest) with
    | nil => simp
    | cons s srest =>
      rw [hs] at hsorted
      exact mergeSpans_pairwise srest s hsorted.of_cons
        (fun q hq => (List.pairwise_cons.mp hsorted).1 q hq)

/-- The spans of one row cover exactly the cells of the row's intervals. -/
theorem rowSpans_mem_iff (ranges : List (Int × Int)) (x : Int) :
    (∃ s ∈ rowSpans ranges, s.1 ≤ x ∧ x < s.2) ↔ ∃ p ∈ ranges, p.1 ≤ x ∧ x < p.2 := by
  match ranges with
  | [] => simp [rowSpans]
  | [r] => simp [rowSpans]
  | r :: r2 :: rest =>
    have hsorted := sorted_pairLE (r :: r2 :: rest)
    have hperm := List.perm_insertionSort pairLE (r :: r2 :: rest)
    simp only [rowSpans]
    cases hs : List.insertionSort pairLE (r :: r2 :: rest) with
    | nil =>
      rw [hs] at hperm
      simpa using hperm.length_eq
    | cons s srest =>
      rw [hs] at hsorted hperm
      rw [mergeSpans_mem_iff srest s hsorted.of_cons
        (fun q hq => (List.pairwise_cons.mp hsorted).1 q hq) x]
      constructor
      · rintro (h | ⟨p, hp, hx⟩)
        · exact ⟨s, hperm.subset (List.mem_cons_self _ _), h⟩
        · exact ⟨p, hperm.subset (List.mem_cons_of_mem _ hp), hx⟩
      · rintro ⟨p, hp, hx⟩
        rcases List.mem_cons.mp (hperm.mem_iff.mpr hp) with rfl | hp₂
        · exact Or.inl hx
        · exact Or.inr ⟨p, hp₂, hx⟩

/-- A row is in a region's row range exactly when the region covers it. -/
theorem mem_rowsOf (r : Region) (y : Int) :
    y ∈ rowsOf r ↔ r.y ≤ y ∧ y < r.y + r.height := by
  unfold rowsOf
  simp only [List.mem_map, List.mem_range]
  constructor
  · rintro ⟨i, hi, rfl⟩; omega
  · intro hy; exact ⟨(y - r.y).toNat, by omega, by omega⟩

/-- The sorted row keys are exactly the rows covered by some region. -/
theorem mem_sortedRows (regions : List Region) (y : Int) :
    y ∈ sortedRows regions ↔ ∃ r ∈ regions, r.y ≤ y ∧ y < r.y + r.height := by
  unfold sortedRows
  rw [(List.perm_insertionSort _ _).mem_iff, List.mem_dedup, List.mem_flatten]
  constructor
  · rintro ⟨l, hl, hy⟩
    obtain ⟨r, hr, rfl⟩ := List.mem_map.mp hl
    exact ⟨r, hr, (mem_rowsOf r y).mp hy⟩
  · rintro ⟨r, hr, hy⟩
    exact ⟨rowsOf r, List.mem_map.mpr ⟨r, hr, rfl⟩, (mem_rowsOf r y).mpr hy⟩

/-- The sorted row keys are strictly increasing. -/
theorem sortedRows_pairwise (regions : List Region) :
    (sortedRows regions).Pairwise (· < ·) := by
  unfold sortedRows
  have hs : (List.insertionSort (· ≤ ·) ((regions.map rowsOf).flatten).dedup).Pairwise
      (fun a b : Int => a ≤ b) := List.sorted_insertionSort _ _
  have hn : (List.insertionSort (· ≤ ·) ((regions.map rowsOf).flatten).dedup).Nodup :=
    (List.perm_insertionSort _ _).symm.nodup (List.nodup_dedup _)
  exact (hs.and hn).imp (fun h => lt_of_le_of_ne h.1 h.2)

/-- The intervals collected for a row are exactly the left/right edges of the
regions covering that row. -/
theorem mem_spansAt (regions : List Region) (y : Int) (p : Int × Int) :
    p ∈ spansAt regions y ↔
      ∃ r ∈ regions, (r.y ≤ y ∧ y < r.y + r.height) ∧ p = (r.x, r.x + r.width) := by
  unfold spansAt
  rw [List.mem_filterMap]
  constructor
  · rintro ⟨r, hr, hp⟩
    split_ifs at hp with hcov
    · exact ⟨r, hr, hcov, by injection hp with h; exact h.symm⟩
  · rintro ⟨r, hr, hcov, rfl⟩
    exact ⟨r, hr, by simp [hcov]⟩

/-- The merge loop absorbs the next interval `(c, d)` into the running span
`(a, b)` — the first emitted span still starts at `a` and now covers up to
`d` — exactly when `c ≤ b`. -/
theorem mergeSpans_absorb_iff (a b c d : Int) (rest : List (Int × Int)) (_hac : a ≤ c)
    (hcd : c < d) :
    (∃ e, (mergeSpans (a, b) ((c, d) :: rest)).head? = some (a, e) ∧ d ≤ e) ↔ c ≤ b := by
  constructor
  · rintro ⟨e, he, hde⟩
    by_contra hcb
    push_neg at hcb
    have heq : mergeSpans (a, b) ((c, d) :: rest) = (a, b) :: mergeSpans (c, d) rest := by
      simp only [mergeSpans]
      rw [if_neg (by omega)]
    rw [heq] at he
    simp only [List.head?_cons, Option.some.injEq, Prod.mk.injEq] at he
    omega
  · intro hcb
    simp only [mergeSpans]
    rw [if_pos (by omega : c ≤ (a, b).2)]
    by_cases hd : d > (a, b).2
    · rw [if_pos hd]
      obtain ⟨e, he, hbe⟩ := mergeSpans_head rest ((a, b).1, d)
      exact ⟨e, he, hbe⟩
    · rw [if_neg hd]
      obtain ⟨e, he, hbe⟩ := mergeSpans_head rest (a, b)
      exact ⟨e, he, by omega⟩

/-- C2: `_regions_to_spans` yields a sorted sequence of spans — ascending in
`(row, column)` with each span on a row ending strictly before the next
begins — whose cells are exactly the cells of the input regions; no two
spans on the same row overlap; and the merge loop combines the next interval
into the running span iff the next interval's left edge is at most the
running span's right edge. -/
theorem C2_regions_to_spans_correct (regions : List Region) :
    ((regionsToSpans regions).Pairwise fun s t =>
        s.1 < t.1 ∨ (s.1 = t.1 ∧ s.2.2 < t.2.1)) ∧
      (∀ x y : Int, inSpans (regionsToSpans regions) x y ↔ inRegions regions x y) ∧
      ((regionsToSpans regions).Pairwise fun s t =>
        s.1 = t.1 → ∀ x : Int, ¬(s.2.1 ≤ x ∧ x < s.2.2 ∧ t.2.1 ≤ x ∧ x < t.2.2)) ∧
      (∀ (a b c d : Int) (rest : List (Int × Int)), a ≤ c → c < d →
        ((∃ e, (mergeSpans (a, b) ((c, d) :: rest)).head? = some (a, e) ∧ d ≤ e) ↔ c ≤ b)) := by
  have hpair : (regionsToSpans regions).Pairwise fun s t =>
      s.1 < t.1 ∨ (s.1 = t.1 ∧ s.2.2 < t.2.1) := by
    unfold regionsToSpans
    rw [List.pairwise_flatMap]
    constructor
    · intro y _
      rw [List.pairwise_map]
      exact (rowSpans_pairwise (spansAt regions y)).imp (fun h => Or.inr ⟨rfl, h⟩)
    · refine (sortedRows_pairwise regions).imp ?_
      intro y₁ y₂ hlt s hs t ht
      obtain ⟨p, _, rfl⟩ := List.mem_map.mp hs
      obtain ⟨q, _, rfl⟩ := List.mem_map.mp ht
      exact Or.inl hlt
  refine ⟨hpair, ?_, ?_, fun a b c d rest hac hcd => mergeSpans_absorb_iff a b c d rest hac hcd⟩
  · intro x y
    constructor
    · rintro ⟨s, hs, hsy, hx1, hx2⟩
      obtain ⟨y', hy', hsf⟩ := List.mem_flatMap.mp hs
      obtain ⟨p, hp, rfl⟩ := List.mem_map.mp hsf
      obtain ⟨q, hq, hqx⟩ := (rowSpans_mem_iff (spansAt regions y') x).mp ⟨p, hp, hx1, hx2⟩
      obtain ⟨r, hr, hcov, rfl⟩ := (mem_spansAt regions y' q).mp hq
      have hyy : y' = y := hsy
      exact ⟨r, hr, hqx.1, hqx.2, hyy ▸ hcov.1, hyy ▸ hcov.2⟩
    · rintro ⟨r, hr, hx1, hx2, hy1, hy2⟩
      have hrow : y ∈ sortedRows regions := (mem_sortedRows regions y).mpr ⟨r, hr, hy1, hy2⟩
      have hq : (r.x, r.x + r.width) ∈ spansAt regions y :=
        (mem_spansAt regions y _).mpr ⟨r, hr, ⟨hy1, hy2⟩, rfl⟩
      obtain ⟨p, hp, hpx⟩ :=
        (rowSpans_mem_iff (spansAt regions y) x).mpr ⟨_, hq, hx1, hx2⟩
      exact ⟨(y, p), List.mem_flatMap.mpr ⟨y, hrow, List.mem_map.mpr ⟨p, hp, rfl⟩⟩, rfl,
        hpx.1, hpx.2⟩
  · refine hpair.imp ?_
    rintro s t (hlt | ⟨heq, hsep⟩) hst x
    · exact fun _ => absurd hst (by omega)
    · omega

/-- Witness for C2: the merge criterion instantiated at the running span
`(0, 5)` and next interval `(3, 7)`, discharging the sortedness and
non-emptiness hypotheses at concrete numbers. -/
theorem C2_regions_to_spans_correct_witness :
    (∃ e, (mergeSpans (0, 5) ((3, 7) :: [])).head? = some (0, e) ∧ 7 ≤ e) ↔ (3 : Int) ≤ 5 :=
  (C2_regions_to_spans_correct []).2.2.2 0 5 3 7 [] (by decide) (by decide)

/-- Python comparison on order triples `(layer_index, z, layer_order)`. -/
def triLt (a b : Nat × Int × Int) : Prop :=
  a.1 < b.1 ∨ (a.1 = b.1 ∧ (a.2.1 < b.2.1 ∨ (a.2.1 = b.2.1 ∧ a.2.2 < b.2.2)))

instance : DecidableRel triLt := fun a b => by unfold triLt; infer_instance

/-- Python lexicographic comparison on order tuples (tuples of triples). -/
def ordLt : OrderT → OrderT → Prop
  | [], [] => False
  | [], _ :: _ => True
  | _ :: _, [] => False
  | a :: as, b :: bs => triLt a b ∨ (a = b ∧ ordLt as bs)

instance : DecidableRel ordLt := fun a b => by
  induction a generalizing b with
  | nil => cases b <;> simp [ordLt] <;> infer_instance
  | cons x xs ih =>
    cases b with
    | nil => simp [ordLt]; infer_instance
    | cons y ys => simp only [ordLt]; have := ih ys; infer_instance

/-- The sort relation realizing Python's stable `sort(key=order, reverse=True)`:
an element goes before another when its order is not smaller. -/
def visRel (a b : OrderT × Nat × Region × Region) : Prop := ¬ ordLt a.1 b.1

instance : DecidableRel visRel := fun a b => by unfold visRel; infer_instance

/-- `self._visible_map if self._visible_map is not None else self._full_map or {}`. -/
def visibleMapOf (c : CState) : CMap := c.visible_map.getD c.full_map

/-- The `Compositor.visible_widgets` property: widgets overlapping the screen
with a non-empty clipped region, in front-to-back (order-descending) paint
order, each with its region and clip. -/
def visibleWidgets (c : CState) : List (Nat × Region × Region) :=
  let screen := c.size.region
  let lst :=
    (visibleMapOf c).filterMap
      (fun p =>
        if screen.overlaps p.2.region && p.2.clip.overlaps p.2.region then
          some (p.2.order, p.1, p.2.region, p.2.clip)
        else none)
  (List.insertionSort visRel lst).map (fun q => (q.2.1, q.2.2.1, q.2.2.2))

/-- One row of the `Compositor.cuts` property: the sorted deduplicated column
positions `0`, `width`, and the edges of every visible widget whose
non-empty clipped region lies inside the screen and covers the row. -/
def cutsRow (c : CState) (y : Nat) : List Int :=
  let width := c.size.width
  let screen := c.size.region
  let raw :=
    [0, width] ++
      (visibleWidgets c).flatMap
        (fun e =>
          let r := e.2.1.intersection e.2.2
          if r.isTrue && screen.containsRegion r && decide (r.y ≤ (y : Int)) &&
              decide ((y : Int) < r.y + r.height) then
            [r.x, r.x + r.width]
          else [])
  List.insertionSort (· ≤ ·) raw.dedup

/-- The `Compositor.cuts` property: one cut list per screen row. -/
def cutsOf (c : CState) : List (List Int) :=
  (List.range c.size.height.toNat).map (cutsRow c)

/-- The `Compositor.layers_visible` property: per row, the visible widgets
covering it with their cropped region and region, inheriting front-to-back
order. -/
def layersVisible (c : CState) : List (List (Nat × Region × Region)) :=
  (List.range c.size.height.toNat).map
    (fun (y : Nat) =>
      (visibleWidgets c).filterMap
        (fun e =>
          let cr := e.2.1.intersection e.2.2
          if cr.height ≠ 0 && decide (cr.y ≤ (y : Int)) && decide ((y : Int) < cr.y + cr.height)
          then some (e.1, cr, e.2.1)
          else none))

/-- A rendered row of a widget, as a list of cells (`Strip`, modelled from
the spec: a strip is a sequence of styled cell runs; runs are modelled at
cell granularity with abstract cell values). -/
abbrev Strip := List Nat

/-- The widget behaviors consumed by the render path: `styles.opacity > 0`,
`widget.visible`, and `render_lines` (black boxes of the widget contract,
modelled as unconstrained functions of the widget handle). -/
structure WEnv where
  opacityPos : Nat → Bool
  visible : Nat → Bool
  render : Nat → Region → List Strip

/-- Python list subscription with negative-index wrap-around; `none` when the
index is out of range (an `IndexError` in the source). -/
def pyGet (l : List α) (i : Int) : Option α :=
  if 0 ≤ i then l[i.toNat]?
  else if 0 ≤ i + l.length then l[(i + l.length).toNat]?
  else none

/-- Python list subscription with a default for the out-of-range case (the
source would raise `IndexError`; the states reaching it are excluded by the
screen-clip hypotheses of the theorems below). -/
def pyGetD (l : List α) (i : Int) (d : α) : α := (pyGet l i).getD d

/-- In-place update of a Python list element, with negative-index
wrap-around; out of range, the list is unchanged (the source would raise). -/
def pyUpdate (l : List α) (i : Int) (f : α → α) : List α :=
  let j : Int := if i < 0 then i + l.length else i
  l.mapIdx (fun k a => if (k : Int) = j then f a else a)

/-- Errors surfaced by the spatial queries: `errors.NoWidget` and a Python
`IndexError`. -/
inductive QueryErr where
  | noWidget : QueryErr
  | indexErr : QueryErr
deriving DecidableEq

/-- `Compositor.get_widget_at`: bounds-check the row, then return the first
visible widget whose cropped region contains the point; `NoWidget`
otherwise. -/
def getWidgetAt (env : WEnv) (c : CState) (x y : Int) : Except QueryErr (Nat × Region) :=
  let lv := layersVisible c
  if (lv.length : Int) > y ∧ 0 ≤ y then
    match (lv.getD y.toNat []).find? (fun e => e.2.1.containsPt x y && env.visible e.1) with
    | some e => .ok (e.1, e.2.2)
    | none => .error .noWidget
  else .error .noWidget

/-- `Compositor.get_widgets_at`: subscripts `layers_visible[y]` without a
bounds check and yields every visible widget whose cropped region contains
the point.  The source is a generator; consuming it raises `IndexError`
when `y` is out of range, modelled here by evaluating eagerly. -/
def getWidgetsAt (env : WEnv) (c : CState) (x y : Int) :
    Except QueryErr (List (Nat × Region)) :=
  match pyGet (layersVisible c) y with
  | none => .error .indexErr
  | some row =>
    .ok ((row.filter (fun e => e.2.1.containsPt x y && env.visible e.1)).map
      (fun e => (e.1, e.2.2)))

/-- One element yielded by `Compositor._get_renders`: the widget's region and
clip, the widget-local region passed to `render_lines` (recorded for the
request-shape claims), and the resulting strips. -/
structure RenderItem where
  widget : Nat
  region : Region
  clip : Region
  request : Region
  strips : List Strip
deriving DecidableEq

/-- `Compositor._get_renders`: visible widgets with positive opacity (and,
when a non-empty crop is given, a clip overlapping it); each is asked to
render its visible rectangle in widget-local coordinates. -/
def getRenders (env : WEnv) (c : CState) (crop : Option Region) : List RenderItem :=
  let vw := visibleWidgets c
  let widgetRegions : List (Nat × Region × Region) :=
    match crop with
    | some cr =>
      if cr.isTrue then vw.filter (fun e => cr.overlaps e.2.2 && env.opacityPos e.1)
      else vw.filter (fun e => env.opacityPos e.1)
    | none => vw.filter (fun e => env.opacityPos e.1)
  widgetRegions.filterMap
    (fun (e : Nat × Region × Region) =>
      let region := e.2.1
      let clip := e.2.2
      if clip.containsRegion region then
        let req : Region := ⟨0, 0, region.width, region.height⟩
        some ⟨e.1, region, clip, req, env.render e.1 req⟩
      else
        let cr := region.intersection clip
        if cr.isTrue then
          let req : Region := ⟨cr.x - region.x, cr.y - region.y, cr.width, cr.height⟩
          some ⟨e.1, region, clip, req, env.render e.1 req⟩
        else none)

/-- Modelled from the spec: `Strip.divide` slices a strip at the given cell
positions, producing one piece per position (piece `i` covers the cells
between the previous position and position `i`). -/
def stripDivide (strip : Strip) : Int → List Int → List Strip
  | _, [] => []
  | prev, ccut :: rest =>
    ((strip.drop prev.toNat).take (ccut - prev).toNat) :: stripDivide strip ccut rest

/-- One chop row: an ordered mapping from cut column to an optional strip
fragment. -/
abbrev ChopLine := List (Int × Option Strip)

/-- Write a fragment into a cut slot only when that slot is still empty
(`if chops_line[cut] is None`); writes to keys that are absent leave the
line unchanged (the source would raise `KeyError`, which is unreachable for
the rows and cuts produced by the render loop). -/
def writeLine (line : ChopLine) (cut : Int) (st : Strip) : ChopLine :=
  line.map (fun p => if p.1 = cut ∧ p.2 = none then (p.1, some st) else p)

/-- The per-row body of `Compositor._render_chops`: restrict the row's cuts to
the widget's column span, slice the strip at the interior cuts, and write
each fragment into its cut slot if still empty. -/
def renderRow (cutsLine : List Int) (line : ChopLine) (rr : Region) (strip : Strip) : ChopLine :=
  let firstCut := rr.x
  let lastCut := rr.x + rr.width
  let finalCuts := cutsLine.filter (fun cut => decide (lastCut ≥ cut) && decide (cut ≥ firstCut))
  let cutStrips :=
    if finalCuts.length ≤ 2 then [strip]
    else stripDivide strip 0 ((finalCuts.drop 1).map (fun cut => cut - rr.x))
  (finalCuts.zip cutStrips).foldl (fun ln p => writeLine ln p.1 p.2) line

/-- Processing of a single render item inside `Compositor._render_chops`: walk
the rendered rows of the widget's visible rectangle, skipping rows not
scheduled for rendering. -/
def applyItem (cuts : List (List Int)) (pred : Int → Bool) (chops : List ChopLine)
    (item : RenderItem) : List ChopLine :=
  let rr := item.region.intersection item.clip
  let rows := (List.range rr.height.toNat).map (fun (i : Nat) => rr.y + (i : Int))
  (rows.zip item.strips).foldl
    (fun ch p =>
      if pred p.1 then pyUpdate ch p.1 (fun line => renderRow (pyGetD cuts p.1 []) line rr p.2)
      else ch)
    chops

/-- `Compositor._render_chops`: initialize every cut slot (except the last
cut of each row) as empty, then fill them front to back from the renders. -/
def renderChops (env : WEnv) (c : CState) (crop : Region) (pred : Int → Bool) : List ChopLine :=
  let cuts := cutsOf c
  let chops0 : List ChopLine :=
    cuts.map (fun cs => cs.dropLast.map (fun cut => (cut, (none : Option Strip))))
  (getRenders env c (some crop)).foldl (applyItem cuts pred) chops0

/-- Modelled from the spec: `Strip.join` concatenates the present fragments
of a row. -/
def stripJoin (l : List (Option Strip)) : Strip := l.foldr (fun o acc => o.getD [] ++ acc) []

/-- The renderable returned by a render call: a full `LayoutUpdate` or a
partial `ChopsUpdate`. -/
inductive UpdateRend where
  | layout (strips : List Strip) (region : Region) : UpdateRend
  | chopsU (chops : List ChopLine) (spans : List (Int × Int × Int))
      (chopEnds : List (List Int)) : UpdateRend

/-- `Compositor.render_full_update`: clear the dirty set and render the whole
screen with every line scheduled. -/
def renderFullUpdate (env : WEnv) (c : CState) : CState × UpdateRend :=
  let screenRegion := c.size.region
  let c1 := { c with dirty_regions := [] }
  let chops := renderChops env c1 screenRegion (fun _ => true)
  let strips := chops.map (fun line => stripJoin (line.map (·.2)))
  (c1, .layout strips screenRegion)

/-- `Compositor.render_partial_update`: snapshot and clear the dirty set;
`none` when it was empty, otherwise a chops update over the dirty spans. -/
def renderPartialUpdate (env : WEnv) (c : CState) : CState × Option UpdateRend :=
  let screenRegion := c.size.region
  let updateRegions := c.dirty_regions
  let c1 := { c with dirty_regions := [] }
  if updateRegions.isEmpty then (c1, none)
  else
    let crop := (Region.fromUnion updateRegions).intersection screenRegion
    let spans := regionsToSpans updateRegions
    let isRendered : Int → Bool := fun y => spans.any (fun s => s.1 == y)
    let chops := renderChops env c1 crop isRendered
    let chopEnds := (cutsOf c1).map (fun cs => cs.drop 1)
    (c1, some (.chopsU chops spans chopEnds))

/-- `Compositor.render_update`: a full update when requested or when the
whole screen region is in the dirty set, otherwise a partial update.  (The
source also installs the screen stack into an ambient rendering context;
that side effect lies outside the compositor state.) -/
def renderUpdate (env : WEnv) (c : CState) (full : Bool) : CState × Option UpdateRend :=
  let screenRegion := c.size.region
  if full || decide (screenRegion ∈ c.dirty_regions) then
    let r := renderFullUpdate env c
    (r.1, some r.2)
  else renderPartialUpdate env c

/-- C8: `render_update` produces a full update iff `full` is set or the whole
screen region is a member of the dirty set; otherwise it produces a partial
update, which returns nothing exactly when the dirty set was empty at the
time of the call; in every case the dirty set is left cleared. -/
theorem C8_render_update_cases (env : WEnv) (c : CState) (full : Bool) :
    ((∃ strips region, (renderUpdate env c full).2 = some (.layout strips region)) ↔
        (full = true ∨ c.size.region ∈ c.dirty_regions)) ∧
      ((renderUpdate env c full).2 = none ↔
        (full = false ∧ c.size.region ∉ c.dirty_regions ∧ c.dirty_regions = [])) ∧
      ((full = false ∧ c.size.region ∉ c.dirty_regions ∧ c.dirty_regions ≠ []) →
        ∃ chops spans ends, (renderUpdate env c full).2 = some (.chopsU chops spans ends)) ∧
      (renderUpdate env c full).1.dirty_regions = [] := by
  unfold renderUpdate
  by_cases hfull : (full || decide (c.size.region ∈ c.dirty_regions)) = true
  · rw [if_pos hfull]
    simp only [Bool.or_eq_true, decide_eq_true_eq] at hfull
    refine ⟨⟨fun _ => hfull, fun _ => ⟨_, _, rfl⟩⟩, ⟨fun h => by simp [renderFullUpdate] at h,
      ?_⟩, ?_, rfl⟩
    · rintro ⟨hf, hmem, -⟩
      subst hf
      exact absurd (hfull.resolve_left (by simp)) hmem
    · rintro ⟨hf, hmem, -⟩
      subst hf
      exact absurd (hfull.resolve_left (by simp)) hmem
  · rw [if_neg hfull]
    simp only [Bool.or_eq_true, decide_eq_true_eq, not_or, Bool.not_eq_true] at hfull
    obtain ⟨hf, hmem⟩ := hfull
    unfold renderPartialUpdate
    by_cases hd : c.dirty_regions.isEmpty = true
    · rw [if_pos hd]
      refine ⟨⟨fun h => ?_, fun h => ?_⟩, ⟨fun _ => ⟨hf, hmem, List.isEmpty_iff.mp hd⟩,
        fun _ => rfl⟩, fun h => absurd (List.isEmpty_iff.mp hd) h.2.2, rfl⟩
      · obtain ⟨s, r, hsr⟩ := h
        exact absurd hsr (by simp)
      · rcases h with h | h
        · exact absurd hf (by simp [h])
        · exact absurd h hmem
    · rw [if_neg hd]
      refine ⟨⟨fun h => ?_, fun h => ?_⟩, ⟨fun h => by simp at h, fun h =>
        absurd h.2.2 (by simpa [List.isEmpty_iff] using hd)⟩, fun _ => ⟨_, _, _, rfl⟩, rfl⟩
      · obtain ⟨s, r, hsr⟩ := h
        exact absurd hsr (by simp)
      · rcases h with h | h
        · exact absurd hf (by simp [h])
        · exact absurd h hmem

/-- A trivial widget environment for concrete scenarios: every widget is
visible with positive opacity and renders cells of value `0`. -/
def env0 : WEnv :=
  ⟨fun _ => true, fun _ => true,
    fun _ r => List.replicate r.height.toNat (List.replicate r.width.toNat 0)⟩

/-- A laid-out compositor state with one dirty cell. -/
def cDirty : CState :=
  { full_map := [(1, ⟨⟨0, 0, 1, 1⟩, [(0, 0, 0)], ⟨0, 0, 3, 2⟩, ⟨1, 1⟩, ⟨1, 1⟩, ⟨0, 0, 1, 1⟩⟩)],
    full_map_invalidated := false, visible_map := none, widgets := [1],
    root := some (leafW 1), size := ⟨3, 2⟩, dirty_regions := [⟨0, 0, 1, 1⟩] }

/-- Witness for C8: from a state with a non-empty dirty set not covering the
screen, an unforced `render_update` yields a chops (partial) update. -/
theorem C8_render_update_cases_witness :
    ∃ chops spans ends, (renderUpdate env0 cDirty false).2 = some (.chopsU chops spans ends) :=
  (C8_render_update_cases env0 cDirty false).2.2.1 ⟨rfl, by decide, by decide⟩

/-- C10: `get_widget_at` bounds-checks the row and raises `NoWidget` for any
`y` outside `[0, height)`; `get_widgets_at` does not: for `y ≥ height` it
fails with an indexing error, and for `-height ≤ y < 0` it consults row
`height + y` (Python negative indexing) with the original coordinates.  The
row count of `layers_visible` is the screen height. -/
theorem C10_widget_at_bounds (env : WEnv) (c : CState) (x y : Int) :
    ((layersVisible c).length = c.size.height.toNat) ∧
      ((y < 0 ∨ ((layersVisible c).length : Int) ≤ y) →
        getWidgetAt env c x y = .error .noWidget) ∧
      (((layersVisible c).length : Int) ≤ y → getWidgetsAt env c x y = .error .indexErr) ∧
      ((-(((layersVisible c).length : Int)) ≤ y ∧ y < 0) →
        getWidgetsAt env c x y =
          .ok ((((layersVisible c).getD (y + (layersVisible c).length).toNat []).filter
              (fun e => e.2.1.containsPt x y && env.visible e.1)).map
            (fun e => (e.1, e.2.2)))) := by
  refine ⟨by simp [layersVisible], ?_, ?_, ?_⟩
  · intro hy
    unfold getWidgetAt
    rw [if_neg (by omega)]
  · intro hy
    unfold getWidgetsAt
    have hlen : (layersVisible c).length ≤ y.toNat := by omega
    rw [show pyGet (layersVisible c) y = none from ?_]
    · unfold pyGet
      rw [if_pos (by omega)]
      exact List.getElem?_eq_none hlen
  · rintro ⟨hy1, hy2⟩
    unfold getWidgetsAt
    have hidx : (y + (layersVisible c).length).toNat < (layersVisible c).length := by omega
    rw [show pyGet (layersVisible c) y =
        some ((layersVisible c).getD (y + (layersVisible c).length).toNat []) from ?_]
    · unfold pyGet
      rw [if_neg (by omega), if_pos (by omega)]
      rw [List.getElem?_eq_getElem hidx, List.getD_eq_getElem _ _ hidx]

/-- The head of a sorted list is its least member. -/
theorem sorted_head_eq_min (l : List Int) (hs : l.Pairwise (· ≤ ·)) (m : Int) (hm : m ∈ l)
    (hall : ∀ a ∈ l, m ≤ a) : l.head? = some m := by
  cases l with
  | nil => cases hm
  | cons a t =>
    have ham : a = m := by
      refine le_antisymm ?_ (hall a (List.mem_cons_self a t))
      rcases List.mem_cons.mp hm with rfl | hmt
      · exact le_refl _
      · exact (List.pairwise_cons.mp hs).1 m hmt
    rw [List.head?_cons, ham]

/-- The last element of a sorted list is its greatest member. -/
theorem sorted_getLast_eq_max (l : List Int) (hs : l.Pairwise (· ≤ ·)) (m : Int) (hm : m ∈ l)
    (hall : ∀ a ∈ l, a ≤ m) : l.getLast? = some m := by
  induction l with
  | nil => cases hm
  | cons a t ih =>
    cases t with
    | nil =>
      rcases List.mem_cons.mp hm with rfl | hmt
      · rfl
      · cases hmt
    | cons b t2 =>
      rw [List.getLast?_cons_cons]
      refine ih hs.of_cons ?_ (fun q hq => hall q (List.mem_cons_of_mem _ hq))
      rcases List.mem_cons.mp hm with rfl | hmt
      · have hab : m ≤ b := (List.pairwise_cons.mp hs).1 b (List.mem_cons_self _ _)
        have hba : b ≤ m := hall b (List.mem_cons_of_mem _ (List.mem_cons_self _ _))
        have : b = m := le_antisymm hba hab
        rw [← this]
        exact List.mem_cons_self _ _
      · exact hmt

/-- The width and height of an intersection are never negative. -/
theorem intersection_dims_nonneg (a b : Region) :
    0 ≤ (a.intersection b).width ∧ 0 ≤ (a.intersection b).height := by
  unfold Region.intersection
  exact ⟨le_max_left _ _, le_max_left _ _⟩

/-- C9: for every row `y` in `[0, height)`, `cuts[y]` is strictly increasing,
starts with `0`, ends with `width`, and every entry other than `0` and
`width` is the left or right edge of the clipped region of some visible
widget whose non-empty clipped region lies entirely inside the screen. -/
theorem C9_cuts_invariant (c : CState) (y : Nat) (hy : y < c.size.height.toNat)
    (hw : 0 ≤ c.size.width) :
    (cutsOf c)[y]? = some (cutsRow c y) ∧
      (cutsRow c y).Pairwise (· < ·) ∧
      (cutsRow c y).head? = some 0 ∧
      (cutsRow c y).getLast? = some c.size.width ∧
      ∀ cut ∈ cutsRow c y, cut ≠ 0 → cut ≠ c.size.width →
        ∃ e ∈ visibleWidgets c,
          (e.2.1.intersection e.2.2).isTrue = true ∧
          c.size.region.containsRegion (e.2.1.intersection e.2.2) = true ∧
          (cut = (e.2.1.intersection e.2.2).x ∨
            cut = (e.2.1.intersection e.2.2).x + (e.2.1.intersection e.2.2).width) := by
  have hidx : (cutsOf c)[y]? = some (cutsRow c y) := by
    unfold cutsOf
    rw [List.getElem?_map, List.getElem?_range hy]
    rfl
  set raw :=
    [0, c.size.width] ++
      (visibleWidgets c).flatMap
        (fun e =>
          let r := e.2.1.intersection e.2.2
          if r.isTrue && c.size.region.containsRegion r && decide (r.y ≤ (y : Int)) &&
              decide ((y : Int) < r.y + r.height) then
            [r.x, r.x + r.width]
          else []) with hraw
  have hrow : cutsRow c y = List.insertionSort (· ≤ ·) raw.dedup := rfl
  have hmem : ∀ a : Int, a ∈ cutsRow c y ↔ a ∈ raw := by
    intro a
    rw [hrow, (List.perm_insertionSort _ _).mem_iff, List.mem_dedup]
  have hedge : ∀ a ∈ raw, a = 0 ∨ a = c.size.width ∨
      ∃ e ∈ visibleWidgets c,
        (e.2.1.intersection e.2.2).isTrue = true ∧
        c.size.region.containsRegion (e.2.1.intersection e.2.2) = true ∧
        (a = (e.2.1.intersection e.2.2).x ∨
          a = (e.2.1.intersection e.2.2).x + (e.2.1.intersection e.2.2).width) := by
    intro a ha
    rw [hraw] at ha
    rcases List.mem_append.mp ha with h0 | hfm
    · rcases List.mem_cons.mp h0 with rfl | h1
      · exact Or.inl rfl
      · rcases List.mem_cons.mp h1 with rfl | h2
        · exact Or.inr (Or.inl rfl)
        · cases h2
    · obtain ⟨e, he, hae⟩ := List.mem_flatMap.mp hfm
      simp only at hae
      split_ifs at hae with hcond
      · simp only [Bool.and_eq_true, decide_eq_true_eq] at hcond
        rcases List.mem_cons.mp hae with rfl | h1
        · exact Or.inr (Or.inr ⟨e, he, hcond.1.1.1, hcond.1.1.2, Or.inl rfl⟩)
        · rcases List.mem_cons.mp h1 with rfl | h2
          · exact Or.inr (Or.inr ⟨e, he, hcond.1.1.1, hcond.1.1.2, Or.inr rfl⟩)
          · cases h2
      · cases hae
  have hbound : ∀ a ∈ raw, 0 ≤ a ∧ a ≤ c.size.width := by
    intro a ha
    rcases hedge a ha with rfl | rfl | ⟨e, _, _, hcont, hax⟩
    · exact ⟨le_refl _, hw⟩
    · exact ⟨hw, le_refl _⟩
    · have hdims := intersection_dims_nonneg e.2.1 e.2.2
      simp only [Region.containsRegion, Size.region, Region.right, Region.bottom,
        Bool.and_eq_true, decide_eq_true_eq] at hcont
      rcases hax with rfl | rfl <;> omega
  have hsorted : (cutsRow c y).Pairwise (· ≤ ·) := by
    rw [hrow]
    exact List.sorted_insertionSort _ _
  have hnodup : (cutsRow c y).Nodup := by
    rw [hrow]
    exact (List.perm_insertionSort _ _).symm.nodup (List.nodup_dedup _)
  have hzero : (0 : Int) ∈ cutsRow c y := (hmem 0).mpr (by rw [hraw]; simp)
  have hwidth : c.size.width ∈ cutsRow c y := (hmem _).mpr (by rw [hraw]; simp)
  refine ⟨hidx, (hsorted.and hnodup).imp (fun h => lt_of_le_of_ne h.1 h.2), ?_, ?_, ?_⟩
  · exact sorted_head_eq_min _ hsorted 0 hzero
      (fun a ha => (hbound a ((hmem a).mp ha)).1)
  · exact sorted_getLast_eq_max _ hsorted _ hwidth
      (fun a ha => (hbound a ((hmem a).mp ha)).2)
  · intro cut hcut h0 hwid
    rcases hedge cut ((hmem cut).mp hcut) with rfl | rfl | h
    · exact absurd rfl h0
    · exact absurd rfl hwid
    · exact h

/-- Witness for C9: the cuts invariant at row 0 of a laid-out 3×2 state. -/
theorem C9_cuts_invariant_witness :
    (cutsOf cDirty)[0]? = some (cutsRow cDirty 0) ∧
      (cutsRow cDirty 0).Pairwise (· < ·) ∧
      (cutsRow cDirty 0).head? = some 0 ∧
      (cutsRow cDirty 0).getLast? = some cDirty.size.width ∧
      ∀ cut ∈ cutsRow cDirty 0, cut ≠ 0 → cut ≠ cDirty.size.width →
        ∃ e ∈ visibleWidgets cDirty,
          (e.2.1.intersection e.2.2).isTrue = true ∧
          cDirty.size.region.containsRegion (e.2.1.intersection e.2.2) = true ∧
          (cut = (e.2.1.intersection e.2.2).x ∨
            cut = (e.2.1.intersection e.2.2).x + (e.2.1.intersection e.2.2).width) :=
  C9_cuts_invariant cDirty 0 (by decide) (by decide)

/-- A laid-out state holding one widget whose clip only partially overlaps
its region (neither contains the other). -/
def cPartialClip : CState :=
  { full_map := [(1, ⟨⟨0, 0, 2, 2⟩, [(0, 0, 0)], ⟨1, 1, 2, 2⟩, ⟨2, 2⟩, ⟨2, 2⟩, ⟨0, 0, 2, 2⟩⟩)],
    full_map_invalidated := false, visible_map := none, widgets := [1],
    root := some (leafW 1), size := ⟨4, 4⟩, dirty_regions := [] }

/-- C7 counterexample: for a visible widget whose clip does not contain its
region, the widget-local region passed to `render_lines` is not
`(clip.x − region.x, clip.y − region.y, clip.width, clip.height)` — the
source derives it from `region ∩ clip` instead. -/
theorem C7_render_request_cex :
    ∃ item ∈ getRenders env0 cPartialClip none,
      item.clip.containsRegion item.region = false ∧
      item.request ≠
        ⟨item.clip.x - item.region.x, item.clip.y - item.region.y, item.clip.width,
          item.clip.height⟩ := by
  decide

/-- C7 amended: `_get_renders` asks a widget whose clip fully contains its
region for `(0, 0, region.width, region.height)`; otherwise it computes
`clipped = region ∩ clip` and asks for
`(clipped.x − region.x, clipped.y − region.y, clipped.width,
clipped.height)`. -/
theorem C7_render_request_amended (env : WEnv) (c : CState) (crop : Option Region)
    (item : RenderItem) (hitem : item ∈ getRenders env c crop) :
    (item.clip.containsRegion item.region = true →
        item.request = ⟨0, 0, item.region.width, item.region.height⟩) ∧
      (item.clip.containsRegion item.region = false →
        item.request =
          ⟨(item.region.intersection item.clip).x - item.region.x,
            (item.region.intersection item.clip).y - item.region.y,
            (item.region.intersection item.clip).width,
            (item.region.intersection item.clip).height⟩) := by
  unfold getRenders at hitem
  obtain ⟨e, he, heq⟩ := List.mem_filterMap.mp hitem
  simp only at heq
  split_ifs at heq with h1 h2
  · injection heq with h
    subst h
    exact ⟨fun _ => rfl, fun hcf => Bool.noConfusion (h1.symm.trans hcf)⟩
  · injection heq with h
    subst h
    exact ⟨fun hct => absurd hct h1, fun _ => rfl⟩

/-- Witness for C7: the amended request formula evaluated on the concrete
partially clipped widget. -/
theorem C7_render_request_amended_witness :
    (⟨1, ⟨0, 0, 2, 2⟩, ⟨1, 1, 2, 2⟩, ⟨1, 1, 1, 1⟩, [[0]]⟩ : RenderItem).request =
      ⟨((⟨0, 0, 2, 2⟩ : Region).intersection ⟨1, 1, 2, 2⟩).x - 0,
        ((⟨0, 0, 2, 2⟩ : Region).intersection ⟨1, 1, 2, 2⟩).y - 0,
        ((⟨0, 0, 2, 2⟩ : Region).intersection ⟨1, 1, 2, 2⟩).width,
        ((⟨0, 0, 2, 2⟩ : Region).intersection ⟨1, 1, 2, 2⟩).height⟩ :=
  (C7_render_request_amended env0 cPartialClip none
      ⟨1, ⟨0, 0, 2, 2⟩, ⟨1, 1, 2, 2⟩, ⟨1, 1, 1, 1⟩, [[0]]⟩ (by decide)).2 (by decide)

/-- Witness for C10: on a 3×2 screen, row 5 gives `NoWidget` from
`get_widget_at` but an indexing error from `get_widgets_at`, and row −1
consults row `height − 1`. -/
theorem C10_widget_at_bounds_witness :
    getWidgetAt env0 cDirty 0 5 = .error .noWidget ∧
      getWidgetsAt env0 cDirty 0 5 = .error .indexErr ∧
      getWidgetsAt env0 cDirty 0 (-1) =
        .ok ((((layersVisible cDirty).getD ((-1 : Int) + (layersVisible cDirty).length).toNat
              []).filter (fun e => e.2.1.containsPt 0 (-1) && env0.visible e.1)).map
          (fun e => (e.1, e.2.2))) :=
  ⟨(C10_widget_at_bounds env0 cDirty 0 5).2.1 (by decide),
    (C10_widget_at_bounds env0 cDirty 0 5).2.2.1 (by decide),
    (C10_widget_at_bounds env0 cDirty 0 (-1)).2.2.2 ⟨by decide, by decide⟩⟩

/-- One map assignment performed during the arrangement; `chrome` marks the
scrollbar-chrome inserts of step 4.g. -/
structure MapWrite where
  chrome : Bool
  key : Nat
  geom : MapGeometry

mutual
/-- The sequence of map assignments performed by `addWidget`, in execution
order: the child subtrees' writes (reversed placement order), then the
scrollbar chrome writes, then the widget's own write. -/
def widgetWrites (visibleOnly : Bool) (w : WTree) (virtualRegion region : Region)
    (order : OrderT) (layerOrder : Int) (clip : Region) (visible0 : Bool) : List MapWrite :=
  match w with
  | .node d plcs =>
    let visible := d.visibility.getD visible0
    let layoutOffset : Offset := if d.hasOffset then d.offsetVal else ⟨0, 0⟩
    let containerRegion := (region.shrink d.gutter).translate layoutOffset
    let containerSize := containerRegion.size
    if d.isScrollable then
      let childRegion := containerRegion.shrink d.scrollbarSpace
      let subClip := clip.intersection childRegion
      let totalRegion0 := childRegion.resetOffset
      let st :=
        if d.isContainer then
          let total1 := totalRegion0.union d.extraTotal
          let viewport := containerSize.region.translate d.scrollOffset
          let placementOffset := containerRegion.offset
          let placementScrollOffset := placementOffset.sub d.scrollOffset
          placeWrites visibleOnly plcs viewport order layerOrder subClip visible
            placementOffset placementScrollOffset d.layerNames d.scrollSpacing total1
        else ([], totalRegion0, layerOrder)
      let ws := st.1
      let totalRegion := st.2.1
      if visible then
        ws ++
          (if d.hScrollbar || d.vScrollbar then
            d.chrome.map
              (fun cw =>
                ⟨true, cw.1,
                  ⟨cw.2.translate containerRegion.offset, order, clip, containerSize,
                    containerSize, cw.2.translate containerRegion.offset⟩⟩)
          else []) ++
          [⟨false, d.wid,
            ⟨region.translate layoutOffset, order, clip, totalRegion.size, containerSize,
              virtualRegion⟩⟩]
      else ws
    else if visible then
      [⟨false, d.wid,
        ⟨region.translate layoutOffset, order, clip, region.size, containerSize,
          virtualRegion⟩⟩]
    else []

/-- The map assignments performed by the placement loop, together with the
final `total_region` and `layer_order`. -/
def placeWrites (visibleOnly : Bool) (plcs : PlcList) (viewport : Region) (order : OrderT)
    (layerOrder : Int) (subClip : Region) (visible : Bool)
    (placementOffset placementScrollOffset : Offset) (layerNames : List Nat)
    (scrollSpacing : Spacing) (total : Region) : List MapWrite × Region × Int :=
  match plcs with
  | .nil => ([], total, layerOrder)
  | .cons subRegion margin subWidget z fixed rest =>
    let st := placeWrites visibleOnly rest viewport order layerOrder subClip visible
      placementOffset placementScrollOffset layerNames scrollSpacing total
    if visibleOnly && !(subRegion.overlaps viewport) then st
    else
      let ws := st.1
      let total1 := st.2.1
      let lo := st.2.2
      let li := layerIndex layerNames subWidget.data.selfLayer
      let total2 :=
        if fixed then total1
        else total1.union (subRegion.grow (if li ≠ 0 then margin else margin.add scrollSpacing))
      let widgetRegion :=
        if fixed then subRegion.translate placementOffset
        else subRegion.translate placementScrollOffset
      let widgetOrder := order ++ [(li, z, lo)]
      (ws ++ widgetWrites visibleOnly subWidget subRegion widgetRegion widgetOrder lo subClip
          visible,
        total2, lo - 1)
end

/-- Folding a write sequence into a map. -/
def foldWrites (ws : List MapWrite) (m : CMap) : CMap :=
  ws.foldl (fun m t => insertMap m t.key t.geom) m

/-- Folding an appended write sequence. -/
theorem foldWrites_append (w1 w2 : List MapWrite) (m : CMap) :
    foldWrites (w1 ++ w2) m = foldWrites w2 (foldWrites w1 m) := by
  simp [foldWrites]

mutual
/-- The map component of `addWidget` is the fold of its write sequence. -/
theorem addWidget_fst_eq (visibleOnly : Bool) (w : WTree) (vr region : Region) (ord : OrderT)
    (lo : Int) (clip : Region) (vis0 : Bool) (acc : CMap × List Nat) :
    (addWidget visibleOnly w vr region ord lo clip vis0 acc).1 =
      foldWrites (widgetWrites visibleOnly w vr region ord lo clip vis0) acc.1 := by
  match w with
  | .node d plcs =>
    have hrec := fun vw ord2 lo2 sc vis2 po pso nm sp acc2 total2 =>
      placeLoop_eq visibleOnly plcs vw ord2 lo2 sc vis2 po pso nm sp acc2 total2
    simp only [addWidget, widgetWrites]
    cases hvis : d.visibility.getD vis0 <;>
      cases hscr : d.isScrollable <;>
        cases hcont : d.isContainer <;>
          simp only [hvis, hscr, hcont, Bool.false_eq_true, Bool.true_eq_false, if_true,
            if_false, ite_true, ite_false, foldWrites, List.foldl_append, List.foldl_map,
            List.foldl_cons, List.foldl_nil]
    all_goals try rfl
    all_goals try (rw [(hrec _ _ _ _ _ _ _ _ _ _ _).1]; rfl)
    case true.true.false =>
      cases hsb : (d.hScrollbar || d.vScrollbar) <;>
        simp only [hsb, Bool.false_eq_true, Bool.true_eq_false, if_true, if_false, ite_true,
          ite_false, List.foldl_append, List.foldl_map, List.foldl_cons, List.foldl_nil] <;>
        rfl
    case true.true.true =>
      rw [(hrec _ _ _ _ _ _ _ _ _ _ _).1, (hrec _ _ _ _ _ _ _ _ _ _ _).2]
      cases hsb : (d.hScrollbar || d.vScrollbar) <;>
        simp only [hsb, Bool.false_eq_true, Bool.true_eq_false, if_true, if_false, ite_true,
          ite_false, List.foldl_append, List.foldl_map, List.foldl_cons, List.foldl_nil] <;>
        rfl

/-- The map component and loop results of `placeLoop` equal those of
`placeWrites`. -/
theorem placeLoop_eq (visibleOnly : Bool) (plcs : PlcList) (viewport : Region) (ord : OrderT)
    (lo : Int) (subClip : Region) (vis : Bool) (poff psoff : Offset) (names : List Nat)
    (ss : Spacing) (acc : CMap × List Nat) (total : Region) :
    (placeLoop visibleOnly plcs viewport ord lo subClip vis poff psoff names ss acc total).1.1 =
        foldWrites
          (placeWrites visibleOnly plcs viewport ord lo subClip vis poff psoff names ss total).1
          acc.1 ∧
      (placeLoop visibleOnly plcs viewport ord lo subClip vis poff psoff names ss acc total).2 =
        (placeWrites visibleOnly plcs viewport ord lo subClip vis poff psoff names ss total).2 := by
  match plcs with
  | .nil => exact ⟨rfl, rfl⟩
  | .cons subRegion margin subWidget z fixed rest =>
    have ih := placeLoop_eq visibleOnly rest viewport ord lo subClip vis poff psoff names ss acc
      total
    simp only [placeLoop, placeWrites]
    by_cases hskip : (visibleOnly && !(subRegion.overlaps viewport)) = true
    · simp only [hskip, Bool.true_eq_false, Bool.false_eq_true, if_true, if_false, ite_true,
        ite_false]
      exact ih
    · simp only [hskip, Bool.true_eq_false, Bool.false_eq_true, if_true, if_false, ite_true,
        ite_false]
      have hw := addWidget_fst_eq visibleOnly subWidget subRegion
        (if fixed then subRegion.translate poff else subRegion.translate psoff)
        (ord ++ [(layerIndex names subWidget.data.selfLayer, z,
          (placeLoop visibleOnly rest viewport ord lo subClip vis poff psoff names ss acc
            total).2.2)])
        ((placeLoop visibleOnly rest viewport ord lo subClip vis poff psoff names ss acc
          total).2.2)
        subClip vis
        (placeLoop visibleOnly rest viewport ord lo subClip vis poff psoff names ss acc total).1
      refine ⟨?_, ?_⟩
      · rw [hw, ih.1, ih.2, foldWrites_append]
      · rw [ih.2]
end

/-- Two order tuples with distinct same-length prefixes are distinct. -/
theorem order_ne_of_prefix_ne {o1 o2 p1 p2 : OrderT} (h1 : p1 <+: o1) (h2 : p2 <+: o2)
    (hlen : p1.length = p2.length) (hne : p1 ≠ p2) : o1 ≠ o2 := by
  intro h
  subst h
  have e1 := List.prefix_iff_eq_take.mp h1
  have e2 := List.prefix_iff_eq_take.mp h2
  rw [hlen] at e1
  exact hne (e1.trans e2.symm)

/-- An order tuple is distinct from any tuple extending it by one triple. -/
theorem ne_of_extending {ord o : OrderT} {tri : Nat × Int × Int}
    (h : (ord ++ [tri]) <+: o) : ord ≠ o := by
  intro he
  subst he
  have := h.length_le
  simp at this

/-- Pairwise holds vacuously for a total relation. -/
theorem pairwise_of_total {α : Type} {R : α → α → Prop} (h : ∀ a b, R a b) :
    ∀ l : List α, l.Pairwise R := by
  intro l
  induction l with
  | nil => exact List.Pairwise.nil
  | cons a t ih => exact List.pairwise_cons.mpr ⟨fun b _ => h a b, ih⟩

mutual
/-- Every write of a subtree call extends the inherited order. -/
theorem widgetWritesPrefixed (vo : Bool) (w : WTree) (vr region : Region) (ord : OrderT)
    (lo : Int) (clip : Region) (vis0 : Bool) :
    ∀ t ∈ widgetWrites vo w vr region ord lo clip vis0, ord <+: t.geom.order := by
  match w with
  | .node d plcs =>
    intro t ht
    have hprof := fun vw ord2 lo2 sc vis2 po pso nm sp total2 =>
      placeWrites_profile vo plcs vw ord2 lo2 sc vis2 po pso nm sp total2
    simp only [widgetWrites] at ht
    cases hvis : d.visibility.getD vis0 <;> cases hscr : d.isScrollable <;>
      cases hcont : d.isContainer <;>
        simp only [hvis, hscr, hcont, Bool.false_eq_true, Bool.true_eq_false, if_true, if_false,
          ite_true, ite_false, List.nil_append, List.append_nil] at ht
    case false.false.false => simp at ht
    case false.false.true => simp at ht
    case false.true.false => simp at ht
    case false.true.true =>
      obtain ⟨li, z, lo2, -, -, hpre⟩ := (hprof _ _ _ _ _ _ _ _ _ _).2 t ht
      exact ((ord.prefix_append [(li, z, lo2)]).trans hpre)
    case true.false.false =>
      rcases List.mem_cons.mp ht with rfl | h0
      · exact List.prefix_refl _
      · cases h0
    case true.false.true =>
      rcases List.mem_cons.mp ht with rfl | h0
      · exact List.prefix_refl _
      · cases h0
    case true.true.false =>
      cases hsb : (d.hScrollbar || d.vScrollbar) <;>
        simp only [hsb, Bool.false_eq_true, Bool.true_eq_false, if_true, if_false, ite_true,
          ite_false, List.nil_append, List.append_nil] at ht
      · rcases List.mem_cons.mp ht with rfl | h0
        · exact List.prefix_refl _
        · cases h0
      · rcases List.mem_append.mp ht with hch | hself
        · obtain ⟨cw, -, rfl⟩ := List.mem_map.mp hch
          exact List.prefix_refl _
        · rcases List.mem_cons.mp hself with rfl | h0
          · exact List.prefix_refl _
          · cases h0
    case true.true.true =>
      cases hsb : (d.hScrollbar || d.vScrollbar) <;>
        simp only [hsb, Bool.false_eq_true, Bool.true_eq_false, if_true, if_false, ite_true,
          ite_false, List.nil_append, List.append_nil] at ht
      · rcases List.mem_append.mp ht with hws | hself
        · obtain ⟨li, z, lo2, -, -, hpre⟩ := (hprof _ _ _ _ _ _ _ _ _ _).2 t hws
          exact ((ord.prefix_append [(li, z, lo2)]).trans hpre)
        · rcases List.mem_cons.mp hself with rfl | h0
          · exact List.prefix_refl _
          · cases h0
      · rcases List.mem_append.mp ht with h | hself
        · rcases List.mem_append.mp h with hws | hch
          · obtain ⟨li, z, lo2, -, -, hpre⟩ := (hprof _ _ _ _ _ _ _ _ _ _).2 t hws
            exact ((ord.prefix_append [(li, z, lo2)]).trans hpre)
          · obtain ⟨cw, -, rfl⟩ := List.mem_map.mp hch
            exact List.prefix_refl _
        · rcases List.mem_cons.mp hself with rfl | h0
          · exact List.prefix_refl _
          · cases h0

/-- The placement loop's final `layer_order` never exceeds the initial one,
and every write of the loop extends the inherited order by a triple whose
`layer_order` component lies strictly between the final and the initial
value. -/
theorem placeWrites_profile (vo : Bool) (plcs : PlcList) (vw : Region) (ord : OrderT) (lo : Int)
    (sc : Region) (vis : Bool) (po pso : Offset) (nm : List Nat) (sp : Spacing)
    (total : Region) :
    (placeWrites vo plcs vw ord lo sc vis po pso nm sp total).2.2 ≤ lo ∧
      ∀ t ∈ (placeWrites vo plcs vw ord lo sc vis po pso nm sp total).1,
        ∃ li z lo2, (placeWrites vo plcs vw ord lo sc vis po pso nm sp total).2.2 < lo2 ∧
          lo2 ≤ lo ∧ (ord ++ [(li, z, lo2)]) <+: t.geom.order := by
  match plcs with
  | .nil =>
    refine ⟨le_refl _, fun t ht => ?_⟩
    cases ht
  | .cons subRegion margin subWidget z fixed rest =>
    have ih := placeWrites_profile vo rest vw ord lo sc vis po pso nm sp total
    have hw := widgetWritesPrefixed vo subWidget subRegion
      (if fixed then subRegion.translate po else subRegion.translate pso)
      (ord ++ [(layerIndex nm subWidget.data.selfLayer, z,
        (placeWrites vo rest vw ord lo sc vis po pso nm sp total).2.2)])
      ((placeWrites vo rest vw ord lo sc vis po pso nm sp total).2.2) sc vis
    simp only [placeWrites]
    by_cases hskip : (vo && !(subRegion.overlaps vw)) = true
    · simp only [hskip, Bool.true_eq_false, Bool.false_eq_true, if_true, if_false, ite_true,
        ite_false]
      exact ih
    · simp only [hskip, Bool.true_eq_false, Bool.false_eq_true, if_true, if_false, ite_true,
        ite_false]
      refine ⟨by omega, fun t ht => ?_⟩
      rcases List.mem_append.mp ht with h | h
      · obtain ⟨li, z2, lo2, hgt, hle, hpre⟩ := ih.2 t h
        exact ⟨li, z2, lo2, by omega, hle, hpre⟩
      · exact ⟨layerIndex nm subWidget.data.selfLayer, z,
          (placeWrites vo rest vw ord lo sc vis po pso nm sp total).2.2, by omega, ih.1, hw t h⟩
end

/-- Distinctness of order tuples between two non-chrome writes. -/
def ncDistinct (t1 t2 : MapWrite) : Prop :=
  t1.chrome = false → t2.chrome = false → t1.geom.order ≠ t2.geom.order

/-- A singleton list is pairwise. -/
theorem pairwise_one {α : Type} {R : α → α → Prop} (a : α) : ([a] : List α).Pairwise R :=
  List.pairwise_cons.mpr ⟨fun b hb => ((List.not_mem_nil b) hb).elim, List.Pairwise.nil⟩

mutual
/-- No two non-chrome writes of a subtree share an order tuple. -/
theorem widgetWrites_pairwise (vo : Bool) (w : WTree) (vr region : Region) (ord : OrderT)
    (lo : Int) (clip : Region) (vis0 : Bool) :
    (widgetWrites vo w vr region ord lo clip vis0).Pairwise ncDistinct := by
  match w with
  | .node d plcs =>
    have hpw := fun vw ord2 lo2 sc vis2 po pso nm sp total2 =>
      placeWrites_pairwise vo plcs vw ord2 lo2 sc vis2 po pso nm sp total2
    simp only [widgetWrites]
    cases hvis : d.visibility.getD vis0 <;> cases hscr : d.isScrollable <;>
      cases hcont : d.isContainer <;>
        simp only [hvis, hscr, hcont, Bool.false_eq_true, Bool.true_eq_false, if_true, if_false,
          ite_true, ite_false, List.nil_append, List.append_nil]
    case false.false.false => exact List.Pairwise.nil
    case false.false.true => exact List.Pairwise.nil
    case false.true.false => exact List.Pairwise.nil
    case false.true.true => exact hpw _ _ _ _ _ _ _ _ _ _
    case true.false.false => exact pairwise_one _
    case true.false.true => exact pairwise_one _
    case true.true.false =>
      cases hsb : (d.hScrollbar || d.vScrollbar) <;>
        simp only [hsb, Bool.false_eq_true, Bool.true_eq_false, if_true, if_false, ite_true,
          ite_false, List.nil_append, List.append_nil]
      · exact pairwise_one _
      · refine List.pairwise_append.mpr ⟨?_, pairwise_one _, ?_⟩
        · refine List.pairwise_map.mpr ?_
          refine pairwise_of_total (fun a b => ?_) _
          intro hc
          cases hc
        · intro a ha b hb
          obtain ⟨cw, -, rfl⟩ := List.mem_map.mp ha
          intro hc
          cases hc
    case true.true.true =>
      have hprof := fun vw ord2 lo2 sc vis2 po pso nm sp total2 =>
        placeWrites_profile vo plcs vw ord2 lo2 sc vis2 po pso nm sp total2
      cases hsb : (d.hScrollbar || d.vScrollbar) <;>
        simp only [hsb, Bool.false_eq_true, Bool.true_eq_false, if_true, if_false, ite_true,
          ite_false, List.nil_append, List.append_nil]
      · refine List.pairwise_append.mpr ⟨hpw _ _ _ _ _ _ _ _ _ _, pairwise_one _, ?_⟩
        intro a ha b hb
        rcases List.mem_cons.mp hb with rfl | h0
        · intro hc1 hc2
          obtain ⟨li, z, lo2, -, -, hpre⟩ := (hprof _ _ _ _ _ _ _ _ _ _).2 a ha
          exact (ne_of_extending hpre).symm
        · cases h0
      · refine List.pairwise_append.mpr
          ⟨List.pairwise_append.mpr ⟨hpw _ _ _ _ _ _ _ _ _ _, ?_, ?_⟩, pairwise_one _, ?_⟩
        · refine List.pairwise_map.mpr ?_
          refine pairwise_of_total (fun a b => ?_) _
          intro hc
          cases hc
        · intro a ha b hb
          obtain ⟨cw, -, rfl⟩ := List.mem_map.mp hb
          intro hc1 hc2
          cases hc2
        · intro a ha b hb
          rcases List.mem_cons.mp hb with rfl | h0
          · rcases List.mem_append.mp ha with hws | hch
            · intro hc1 hc2
              obtain ⟨li, z, lo2, -, -, hpre⟩ := (hprof _ _ _ _ _ _ _ _ _ _).2 a hws
              exact (ne_of_extending hpre).symm
            · obtain ⟨cw, -, rfl⟩ := List.mem_map.mp hch
              intro hc1
              cases hc1
          · cases h0

/-- No two non-chrome writes of the placement loop share an order tuple. -/
theorem placeWrites_pairwise (vo : Bool) (plcs : PlcList) (vw : Region) (ord : OrderT)
    (lo : Int) (sc : Region) (vis : Bool) (po pso : Offset) (nm : List Nat) (sp : Spacing)
    (total : Region) :
    (placeWrites vo plcs vw ord lo sc vis po pso nm sp total).1.Pairwise ncDistinct := by
  match plcs with
  | .nil => exact List.Pairwise.nil
  | .cons subRegion margin subWidget z fixed rest =>
    have ih := placeWrites_pairwise vo rest vw ord lo sc vis po pso nm sp total
    have hprofr := placeWrites_profile vo rest vw ord lo sc vis po pso nm sp total
    have hwp := widgetWrites_pairwise vo subWidget subRegion
      (if fixed then subRegion.translate po else subRegion.translate pso)
      (ord ++ [(layerIndex nm subWidget.data.selfLayer, z,
        (placeWrites vo rest vw ord lo sc vis po pso nm sp total).2.2)])
      ((placeWrites vo rest vw ord lo sc vis po pso nm sp total).2.2) sc vis
    have hwpre := widgetWritesPrefixed vo subWidget subRegion
      (if fixed then subRegion.translate po else subRegion.translate pso)
      (ord ++ [(layerIndex nm subWidget.data.selfLayer, z,
        (placeWrites vo rest vw ord lo sc vis po pso nm sp total).2.2)])
      ((placeWrites vo rest vw ord lo sc vis po pso nm sp total).2.2) sc vis
    simp only [placeWrites]
    by_cases hskip : (vo && !(subRegion.overlaps vw)) = true
    · simp only [hskip, Bool.true_eq_false, Bool.false_eq_true, if_true, if_false, ite_true,
        ite_false]
      exact ih
    · simp only [hskip, Bool.true_eq_false, Bool.false_eq_true, if_true, if_false, ite_true,
        ite_false]
      refine List.pairwise_append.mpr ⟨ih, hwp, ?_⟩
      intro a ha b hb hc1 hc2
      obtain ⟨li1, z1, lo2, hgt, -, hpre1⟩ := hprofr.2 a ha
      have hpre2 := hwpre b hb
      refine order_ne_of_prefix_ne hpre1 hpre2 (by simp) ?_
      intro he
      have := List.append_cancel_left he
      simp only [List.cons.injEq, Prod.mk.injEq] at this
      omega
end

mutual
/-- All chrome widget handles appearing anywhere in a widget tree. -/
def chromeWids : WTree → List Nat
  | .node d plcs => d.chrome.map (·.1) ++ plcChromeWids plcs

/-- All chrome widget handles appearing in a placement list. -/
def plcChromeWids : PlcList → List Nat
  | .nil => []
  | .cons _ _ sw _ _ rest => chromeWids sw ++ plcChromeWids rest
end

mutual
/-- Chrome writes of a subtree use handles from the tree's chrome lists. -/
theorem widgetWrites_chrome_key (vo : Bool) (w : WTree) (vr region : Region) (ord : OrderT)
    (lo : Int) (clip : Region) (vis0 : Bool) :
    ∀ t ∈ widgetWrites vo w vr region ord lo clip vis0, t.chrome = true →
      t.key ∈ chromeWids w := by
  match w with
  | .node d plcs =>
    intro t ht hchr
    have hrec := fun vw ord2 lo2 sc vis2 po pso nm sp total2 =>
      placeWrites_chrome_key vo plcs vw ord2 lo2 sc vis2 po pso nm sp total2
    simp only [widgetWrites] at ht
    simp only [chromeWids]
    cases hvis : d.visibility.getD vis0 <;> cases hscr : d.isScrollable <;>
      cases hcont : d.isContainer <;>
        simp only [hvis, hscr, hcont, Bool.false_eq_true, Bool.true_eq_false, if_true, if_false,
          ite_true, ite_false, List.nil_append, List.append_nil] at ht
    case false.false.false => simp at ht
    case false.false.true => simp at ht
    case false.true.false => simp at ht
    case false.true.true =>
      exact List.mem_append.mpr (Or.inr ((hrec _ _ _ _ _ _ _ _ _ _) t ht hchr))
    case true.false.false =>
      rcases List.mem_cons.mp ht with rfl | h0
      · cases hchr
      · cases h0
    case true.false.true =>
      rcases List.mem_cons.mp ht with rfl | h0
      · cases hchr
      · cases h0
    case true.true.false =>
      cases hsb : (d.hScrollbar || d.vScrollbar) <;>
        simp only [hsb, Bool.false_eq_true, Bool.true_eq_false, if_true, if_false, ite_true,
          ite_false, List.nil_append, List.append_nil] at ht
      · rcases List.mem_cons.mp ht with rfl | h0
        · cases hchr
        · cases h0
      · rcases List.mem_append.mp ht with hch | hself
        · obtain ⟨cw, hcw, rfl⟩ := List.mem_map.mp hch
          exact List.mem_append.mpr (Or.inl (List.mem_map.mpr ⟨cw, hcw, rfl⟩))
        · rcases List.mem_cons.mp hself with rfl | h0
          · cases hchr
          · cases h0
    case true.true.true =>
      cases hsb : (d.hScrollbar || d.vScrollbar) <;>
        simp only [hsb, Bool.false_eq_true, Bool.true_eq_false, if_true, if_false, ite_true,
          ite_false, List.nil_append, List.append_nil] at ht
      · rcases List.mem_append.mp ht with hws | hself
        · exact List.mem_append.mpr (Or.inr ((hrec _ _ _ _ _ _ _ _ _ _) t hws hchr))
        · rcases List.mem_cons.mp hself with rfl | h0
          · cases hchr
          · cases h0
      · rcases List.mem_append.mp ht with h | hself
        · rcases List.mem_append.mp h with hws | hch
          · exact List.mem_append.mpr (Or.inr ((hrec _ _ _ _ _ _ _ _ _ _) t hws hchr))
          · obtain ⟨cw, hcw, rfl⟩ := List.mem_map.mp hch
            exact List.mem_append.mpr (Or.inl (List.mem_map.mpr ⟨cw, hcw, rfl⟩))
        · rcases List.mem_cons.mp hself with rfl | h0
          · cases hchr
          · cases h0

/-- Chrome writes of the placement loop use handles from the placements'
chrome lists. -/
theorem placeWrites_chrome_key (vo : Bool) (plcs : PlcList) (vw : Region) (ord : OrderT)
    (lo : Int) (sc : Region) (vis : Bool) (po pso : Offset) (nm : List Nat) (sp : Spacing)
    (total : Region) :
    ∀ t ∈ (placeWrites vo plcs vw ord lo sc vis po pso nm sp total).1, t.chrome = true →
      t.key ∈ plcChromeWids plcs := by
  match plcs with
  | .nil =>
    intro t ht
    cases ht
  | .cons subRegion margin subWidget z fixed rest =>
    intro t ht hchr
    have ih := placeWrites_chrome_key vo rest vw ord lo sc vis po pso nm sp total
    have hwk := widgetWrites_chrome_key vo subWidget subRegion
      (if fixed then subRegion.translate po else subRegion.translate pso)
      (ord ++ [(layerIndex nm subWidget.data.selfLayer, z,
        (placeWrites vo rest vw ord lo sc vis po pso nm sp total).2.2)])
      ((placeWrites vo rest vw ord lo sc vis po pso nm sp total).2.2) sc vis
    simp only [placeWrites] at ht
    simp only [plcChromeWids]
    by_cases hskip : (vo && !(subRegion.overlaps vw)) = true
    · simp only [hskip, Bool.true_eq_false, Bool.false_eq_true, if_true, if_false, ite_true,
        ite_false] at ht
      exact List.mem_append.mpr (Or.inr (ih t ht hchr))
    · simp only [hskip, Bool.true_eq_false, Bool.false_eq_true, if_true, if_false, ite_true,
        ite_false] at ht
      rcases List.mem_append.mp ht with h | h
      · exact List.mem_append.mpr (Or.inr (ih t h hchr))
      · exact List.mem_append.mpr (Or.inl (hwk t h hchr))
end

/-- Membership after a dictionary assignment. -/
theorem mem_insertMap {m : CMap} {k0 : Nat} {v : MapGeometry} {p : Nat × MapGeometry}
    (hp : p ∈ insertMap m k0 v) : p = (k0, v) ∨ p ∈ m := by
  unfold insertMap at hp
  split_ifs at hp with h
  · obtain ⟨q, hq, hpq⟩ := List.mem_map.mp hp
    split_ifs at hpq with h2
    · exact Or.inl hpq.symm
    · exact Or.inr (hpq ▸ hq)
  · rcases List.mem_append.mp hp with h1 | h2
    · exact Or.inr h1
    · rcases List.mem_cons.mp h2 with rfl | h0
      · exact Or.inl rfl
      · cases h0

/-- Every entry of a folded write sequence is one of the writes or an entry
of the initial map. -/
theorem mem_foldWrites {ws : List MapWrite} {m : CMap} {p : Nat × MapGeometry}
    (hp : p ∈ foldWrites ws m) : (∃ t ∈ ws, t.key = p.1 ∧ t.geom = p.2) ∨ p ∈ m := by
  induction ws generalizing m with
  | nil => exact Or.inr hp
  | cons t ws ih =>
    rcases ih (m := insertMap m t.key t.geom) hp with ⟨u, hu, he⟩ | hm
    · exact Or.inl ⟨u, List.mem_cons_of_mem _ hu, he⟩
    · rcases mem_insertMap hm with rfl | h
      · exact Or.inl ⟨t, List.mem_cons_self _ _, rfl, rfl⟩
      · exact Or.inr h

/-- C4 amended: in any composition map produced by the arrangement, two
distinct widgets carry different `order` tuples unless one of them is a
scrollbar chrome widget — chrome widgets are inserted with the same `order`
as their owning container. -/
theorem C4_order_distinct_amended (vo : Bool) (root : WTree) (size : Size) (k1 k2 : Nat)
    (g1 g2 : MapGeometry) (h1 : (k1, g1) ∈ (arrangeRoot vo root size).1)
    (h2 : (k2, g2) ∈ (arrangeRoot vo root size).1) (hk : k1 ≠ k2)
    (hc1 : k1 ∉ chromeWids root) (hc2 : k2 ∉ chromeWids root) : g1.order ≠ g2.order := by
  have heq : (arrangeRoot vo root size).1 =
      foldWrites (widgetWrites vo root size.region size.region [(0, 0, 0)] 0 size.region true)
        [] :=
    addWidget_fst_eq vo root size.region size.region [(0, 0, 0)] 0 size.region true ([], [])
  rw [heq] at h1 h2
  rcases mem_foldWrites h1 with ⟨t1, ht1, hk1, hg1⟩ | hh
  · rcases mem_foldWrites h2 with ⟨t2, ht2, hk2, hg2⟩ | hh
    · have hk1' : t1.key = k1 := hk1
      have hg1' : t1.geom = g1 := hg1
      have hk2' : t2.key = k2 := hk2
      have hg2' : t2.geom = g2 := hg2
      have hnc1 : t1.chrome = false := by
        cases hcb : t1.chrome
        · rfl
        · exact absurd (hk1' ▸ widgetWrites_chrome_key vo root _ _ _ _ _ _ t1 ht1 hcb) hc1
      have hnc2 : t2.chrome = false := by
        cases hcb : t2.chrome
        · rfl
        · exact absurd (hk2' ▸ widgetWrites_chrome_key vo root _ _ _ _ _ _ t2 ht2 hcb) hc2
      have hne : t1 ≠ t2 := fun he => hk (by rw [← hk1', ← hk2', he])
      have hsym : Symmetric ncDistinct := by
        intro a b hd hcb hca
        exact (hd hca hcb).symm
      have hdist :=
        (widgetWrites_pairwise vo root size.region size.region [(0, 0, 0)] 0 size.region
          true).forall hsym ht1 ht2 hne hnc1 hnc2
      rw [hg1', hg2'] at hdist
      exact hdist
    · cases hh
  · cases hh

/-- The map geometry of `contW`'s child in the full arrangement at 3×2. -/
def gChild : MapGeometry :=
  ⟨⟨100, 100, 1, 1⟩, [(0, 0, 0), (0, 0, 0)], ⟨0, 0, 3, 2⟩, ⟨1, 1⟩, ⟨1, 1⟩, ⟨100, 100, 1, 1⟩⟩

/-- The map geometry of `contW` itself in the full arrangement at 3×2. -/
def gRoot : MapGeometry :=
  ⟨⟨0, 0, 3, 2⟩, [(0, 0, 0)], ⟨0, 0, 3, 2⟩, ⟨101, 101⟩, ⟨3, 2⟩, ⟨0, 0, 3, 2⟩⟩

/-- Witness for C4: the amended distinctness applied to the two non-chrome
widgets of `contW`'s full arrangement. -/
theorem C4_order_distinct_amended_witness : gChild.order ≠ gRoot.order :=
  C4_order_distinct_amended false contW ⟨3, 2⟩ 7 0 gChild gRoot (by decide) (by decide)
    (by decide) (by decide) (by decide)

/-- The cut slot of a row containing column `x`: the adjacent pair `(c, c')`
of the row's cut list with `c ≤ x < c'`. -/
def slotOf (cutsLine : List Int) (x : Int) : Option (Int × Int) :=
  (cutsLine.zip cutsLine.tail).find? (fun p => decide (p.1 ≤ x) && decide (x < p.2))

/-- Lookup of a cut key in one chop row. -/
def lookupLine (line : ChopLine) (cut : Int) : Option (Option Strip) :=
  (line.find? (fun p => p.1 == cut)).map (·.2)

/-- Modelled from the spec: the cell emitted at `(x, y)` when the chops are
flushed — the fragment stored at the cut slot containing `x`, indexed at
`x` minus the slot's start (a chop is the fragment bounded by consecutive
cuts). -/
def cellAt (cuts : List (List Int)) (chops : List ChopLine) (x y : Int) : Option Nat :=
  match pyGet cuts y, pyGet chops y with
  | some cl, some line =>
    match slotOf cl x with
    | some (cslot, _) =>
      match lookupLine line cslot with
      | some (some strip) => strip[(x - cslot).toNat]?
      | _ => none
    | none => none
  | _, _ => none

/-- The widget-local region `_get_renders` asks a widget to render. -/
def requestOf (rA cA : Region) : Region :=
  if cA.containsRegion rA then ⟨0, 0, rA.width, rA.height⟩
  else
    ⟨(rA.intersection cA).x - rA.x, (rA.intersection cA).y - rA.y, (rA.intersection cA).width,
      (rA.intersection cA).height⟩

/-- An environment whose widgets render cells tagged with their own handle. -/
def envTag : WEnv :=
  ⟨fun _ => true, fun _ => true,
    fun w r => List.replicate r.height.toNat (List.replicate r.width.toNat w)⟩

/-- Three stacked full-screen widgets: 3 in front, then 1, then 2. -/
def cThree : CState :=
  { full_map :=
      [(3, ⟨⟨0, 0, 3, 2⟩, [(0, 0, 3)], ⟨0, 0, 3, 2⟩, ⟨3, 2⟩, ⟨3, 2⟩, ⟨0, 0, 3, 2⟩⟩),
        (1, ⟨⟨0, 0, 3, 2⟩, [(0, 0, 2)], ⟨0, 0, 3, 2⟩, ⟨3, 2⟩, ⟨3, 2⟩, ⟨0, 0, 3, 2⟩⟩),
        (2, ⟨⟨0, 0, 3, 2⟩, [(0, 0, 1)], ⟨0, 0, 3, 2⟩, ⟨3, 2⟩, ⟨3, 2⟩, ⟨0, 0, 3, 2⟩⟩)],
    full_map_invalidated := false, visible_map := none, widgets := [3, 1, 2],
    root := some (leafW 3), size := ⟨3, 2⟩, dirty_regions := [] }

/-- C3 counterexample: widget 1 precedes widget 2 in paint order and cell
`(0, 0)` lies in both widgets' regions and clips, yet the rendered cell
carries widget 3's content (the frontmost widget), not widget 1's: merely
preceding `B` is not enough for `A` to own the shared cells. -/
theorem C3_front_wins_cex :
    visibleWidgets cThree =
      [(3, ⟨0, 0, 3, 2⟩, ⟨0, 0, 3, 2⟩), (1, ⟨0, 0, 3, 2⟩, ⟨0, 0, 3, 2⟩),
        (2, ⟨0, 0, 3, 2⟩, ⟨0, 0, 3, 2⟩)] ∧
      (⟨0, 0, 3, 2⟩ : Region).containsPt 0 0 = true ∧
      envTag.opacityPos 1 = true ∧
      cellAt (cutsOf cThree) (renderChops envTag cThree ⟨0, 0, 3, 2⟩ (fun _ => true)) 0 0 =
        some 3 ∧
      ((envTag.render 1 (requestOf ⟨0, 0, 3, 2⟩ ⟨0, 0, 3, 2⟩))[0]?.getD [])[0]? = some 1 ∧
      (3 : Nat) ≠ 1 := by
  decide

/-- Unfolding of point containment. -/
theorem containsPt_iff {r : Region} {x y : Int} :
    r.containsPt x y = true ↔
      r.x ≤ x ∧ x < r.x + r.width ∧ r.y ≤ y ∧ y < r.y + r.height := by
  simp [Region.containsPt, and_assoc]

/-- Unfolding of region containment. -/
theorem containsRegion_iff {a b : Region} :
    a.containsRegion b = true ↔
      a.x ≤ b.x ∧ a.y ≤ b.y ∧ b.x + b.width ≤ a.x + a.width ∧
        b.y + b.height ≤ a.y + a.height := by
  simp [Region.containsRegion, Region.right, Region.bottom, and_assoc]

/-- The components of an intersection. -/
theorem inter_comps (a b : Region) :
    (a.intersection b).x = max a.x b.x ∧ (a.intersection b).y = max a.y b.y ∧
      (a.intersection b).width =
        max 0 (min (a.x + a.width) (b.x + b.width) - max a.x b.x) ∧
      (a.intersection b).height =
        max 0 (min (a.y + a.height) (b.y + b.height) - max a.y b.y) := by
  unfold Region.intersection Region.right Region.bottom
  exact ⟨rfl, rfl, rfl, rfl⟩

/-- A point in both regions is in the intersection. -/
theorem inter_containsPt {a b : Region} {x y : Int} (ha : a.containsPt x y = true)
    (hb : b.containsPt x y = true) : (a.intersection b).containsPt x y = true := by
  rw [containsPt_iff] at ha hb ⊢
  obtain ⟨h1, h2, h3, h4⟩ := inter_comps a b
  rw [h1, h2, h3, h4]
  omega

/-- A non-empty intersection lies inside its right operand. -/
theorem inter_sub_right {a b : Region} {x y : Int}
    (h : (a.intersection b).containsPt x y = true) :
    b.containsRegion (a.intersection b) = true := by
  rw [containsPt_iff] at h
  rw [containsRegion_iff]
  obtain ⟨h1, h2, h3, h4⟩ := inter_comps a b
  rw [h1, h2, h3, h4] at h ⊢
  omega

/-- Region containment is transitive. -/
theorem containsRegion_trans {a b c : Region} (h1 : a.containsRegion b = true)
    (h2 : b.containsRegion c = true) : a.containsRegion c = true := by
  rw [containsRegion_iff] at h1 h2 ⊢
  omega

/-- A region containing a point is truthy. -/
theorem isTrue_of_containsPt {r : Region} {x y : Int} (h : r.containsPt x y = true) :
    r.isTrue = true := by
  rw [containsPt_iff] at h
  simp [Region.isTrue]
  omega

/-- The cut list of a row is strictly increasing. -/
theorem cutsRow_sorted (c : CState) (y : Nat) : (cutsRow c y).Pairwise (· < ·) := by
  unfold cutsRow
  have hs : (List.insertionSort (· ≤ ·)
      ([(0 : Int), c.size.width] ++
        (visibleWidgets c).flatMap
          (fun e =>
            let r := e.2.1.intersection e.2.2
            if r.isTrue && c.size.region.containsRegion r && decide (r.y ≤ (y : Int)) &&
                decide ((y : Int) < r.y + r.height) then
              [r.x, r.x + r.width]
            else [])).dedup).Pairwise (fun a b : Int => a ≤ b) :=
    List.sorted_insertionSort _ _
  have hn := (List.perm_insertionSort (α := Int) (· ≤ ·)
    (([(0 : Int), c.size.width] ++
      (visibleWidgets c).flatMap
        (fun e =>
          let r := e.2.1.intersection e.2.2
          if r.isTrue && c.size.region.containsRegion r && decide (r.y ≤ (y : Int)) &&
              decide ((y : Int) < r.y + r.height) then
            [r.x, r.x + r.width]
          else [])).dedup)).symm.nodup (List.nodup_dedup _)
  exact (hs.and hn).imp (fun h => lt_of_le_of_ne h.1 h.2)

/-- The clipped edges of a qualifying visible widget appear in the cut list
of every row the clipped region covers. -/
theorem edge_mem_cutsRow (c : CState) (y : Nat) (e : Nat × Region × Region)
    (he : e ∈ visibleWidgets c) (ht : (e.2.1.intersection e.2.2).isTrue = true)
    (hcont : c.size.region.containsRegion (e.2.1.intersection e.2.2) = true)
    (hy1 : (e.2.1.intersection e.2.2).y ≤ (y : Int))
    (hy2 : (y : Int) < (e.2.1.intersection e.2.2).y + (e.2.1.intersection e.2.2).height) :
    (e.2.1.intersection e.2.2).x ∈ cutsRow c y ∧
      (e.2.1.intersection e.2.2).x + (e.2.1.intersection e.2.2).width ∈ cutsRow c y := by
  unfold cutsRow
  constructor <;>
    (rw [(List.perm_insertionSort _ _).mem_iff, List.mem_dedup]
     refine List.mem_append.mpr (Or.inr (List.mem_flatMap.mpr ⟨e, he, ?_⟩))
     rw [if_pos (by simp [ht, hcont]; omega)]
     simp)

/-- Subscription at a nonnegative index is plain indexing. -/
theorem pyGet_nonneg {l : List α} {i : Int} (h : 0 ≤ i) : pyGet l i = l[i.toNat]? := by
  simp [pyGet, h]

/-- In-place update preserves the length. -/
theorem pyUpdate_length (l : List α) (i : Int) (f : α → α) :
    (pyUpdate l i f).length = l.length := by
  simp [pyUpdate]

/-- An in-place update at one nonnegative index leaves any other nonnegative
index unchanged. -/
theorem pyUpdate_get_other {l : List α} {i j : Int} (hi : 0 ≤ i) (hj : 0 ≤ j)
    (hne : i ≠ j) (f : α → α) : pyGet (pyUpdate l i f) j = pyGet l j := by
  rw [pyGet_nonneg hj, pyGet_nonneg hj]
  unfold pyUpdate
  rw [List.getElem?_mapIdx]
  have hij : ¬ ((j.toNat : Int) = if i < 0 then i + l.length else i) := by
    rw [if_neg (by omega)]
    omega
  simp only [hij, if_false]
  cases l[j.toNat]? <;> rfl

/-- An in-place update at a nonnegative index maps the element there. -/
theorem pyUpdate_get_self {l : List α} {i : Int} (hi : 0 ≤ i) (f : α → α) :
    pyGet (pyUpdate l i f) i = (pyGet l i).map f := by
  rw [pyGet_nonneg hi, pyGet_nonneg hi]
  unfold pyUpdate
  rw [List.getElem?_mapIdx]
  have hii : ((i.toNat : Int) = if i < 0 then i + l.length else i) := by
    rw [if_neg (by omega)]
    omega
  simp only [hii, if_true, if_pos]

/-- Any in-place update either maps one element or leaves it; a property
preserved by the function is preserved at every index. -/
theorem pyUpdate_preserveP {P : α → Prop} {l : List α} (i : Int) (f : α → α)
    (hf : ∀ a, P a → P (f a)) (j : Nat) (hj : ∀ a, l[j]? = some a → P a) :
    ∀ a, (pyUpdate l i f)[j]? = some a → P a := by
  intro a ha
  unfold pyUpdate at ha
  rw [List.getElem?_mapIdx] at ha
  cases hl : l[j]? with
  | none => rw [hl] at ha; cases ha
  | some b =>
    rw [hl] at ha
    rw [Option.map_some'] at ha
    by_cases hc : ((j : Int) = if i < 0 then i + l.length else i)
    · rw [if_pos hc] at ha
      exact (Option.some_inj.mp ha) ▸ hf b (hj b hl)
    · rw [if_neg hc] at ha
      exact (Option.some_inj.mp ha) ▸ hj b hl

/-- In a strictly increasing list, an element smaller than another element is
not the last one. -/
theorem mem_dropLast_of_lt {l : List Int} (hs : l.Pairwise (· < ·)) {a b : Int}
    (ha : a ∈ l) (hb : b ∈ l) (hab : a < b) : a ∈ l.dropLast := by
  induction l with
  | nil => cases ha
  | cons c t ih =>
    cases t with
    | nil =>
      rcases List.mem_singleton.mp ha with rfl
      rcases List.mem_singleton.mp hb with rfl
      omega
    | cons d t' =>
      rw [List.dropLast_cons₂]
      rcases List.mem_cons.mp ha with rfl | hat
      · exact List.mem_cons_self _ _
      · have hbt : b ∈ d :: t' := by
          rcases List.mem_cons.mp hb with rfl | hbt
          · exact absurd ((List.pairwise_cons.mp hs).1 a hat) (by omega)
          · exact hbt
        exact List.mem_cons_of_mem _ (ih (List.pairwise_cons.mp hs).2 hat hbt)

/-- In a strictly increasing cut list with a cut at or before `x` and a cut
after `x`, the slot of `x` exists: it is an adjacent pair straddling `x`,
and every cut lies outside the open slot. -/
theorem slot_spec (x : Int) : ∀ (cl : List Int), cl.Pairwise (· < ·) → ∀ a b : Int,
    a ∈ cl → a ≤ x → b ∈ cl → x < b →
    ∃ cs ce, slotOf cl x = some (cs, ce) ∧ cs ≤ x ∧ x < ce ∧
      (cs, ce) ∈ cl.zip cl.tail ∧ ∀ e ∈ cl, e ≤ cs ∨ ce ≤ e := by
  intro cl
  induction cl with
  | nil => intro _ a b ha; exact absurd ha (List.not_mem_nil a)
  | cons c0 t ih =>
    intro hs a b ha hax hb hxb
    cases t with
    | nil =>
      rcases List.mem_singleton.mp ha with rfl
      rcases List.mem_singleton.mp hb with heq
      omega
    | cons c1 t' =>
      by_cases h0 : c0 ≤ x ∧ x < c1
      · refine ⟨c0, c1, ?_, h0.1, h0.2, ?_, ?_⟩
        · unfold slotOf
          rw [List.tail_cons, List.zip_cons_cons]
          exact List.find?_cons_of_pos _ (by simp [h0.1, h0.2])
        · rw [List.tail_cons, List.zip_cons_cons]
          exact List.mem_cons_self _ _
        · intro e he
          rcases List.mem_cons.mp he with rfl | he'
          · exact Or.inl le_rfl
          · rcases List.mem_cons.mp he' with rfl | he''
            · exact Or.inr le_rfl
            · exact Or.inr (le_of_lt ((List.pairwise_cons.mp
                (List.pairwise_cons.mp hs).2).1 e he''))
      · have hc0x : c0 ≤ x := by
          rcases List.mem_cons.mp ha with rfl | hat
          · exact hax
          · exact le_of_lt (lt_of_lt_of_le ((List.pairwise_cons.mp hs).1 a hat) hax)
        have hc1x : c1 ≤ x := by omega
        have hbt : b ∈ c1 :: t' := by
          rcases List.mem_cons.mp hb with rfl | hbt
          · omega
          · exact hbt
        obtain ⟨cs, ce, hfind, hcs, hce, hmem, hsep⟩ :=
          ih (List.pairwise_cons.mp hs).2 c1 b (List.mem_cons_self _ _) hc1x hbt hxb
        refine ⟨cs, ce, ?_, hcs, hce, ?_, ?_⟩
        · unfold slotOf at hfind ⊢
          rw [List.tail_cons, List.zip_cons_cons,
            List.find?_cons_of_neg _ (by simp; omega)]
          exact hfind
        · rw [List.tail_cons, List.zip_cons_cons]
          exact List.mem_cons_of_mem _ hmem
        · intro e he
          rcases List.mem_cons.mp he with rfl | he'
          · exact Or.inl (le_of_lt (lt_of_lt_of_le
              ((List.pairwise_cons.mp hs).1 cs (List.mem_zip hmem).1) le_rfl))
          · exact hsep e he'

/-- Effect of one conditional slot write on a lookup. -/
theorem lookupLine_writeLine (line : ChopLine) (k : Int) (st : Strip) (c : Int) :
    lookupLine (writeLine line k st) c =
      (lookupLine line c).map (fun o => if c = k ∧ o = none then some st else o) := by
  induction line with
  | nil => rfl
  | cons p t ih =>
    unfold writeLine lookupLine at ih ⊢
    rw [List.map_cons, List.find?_cons, List.find?_cons]
    by_cases hp : p.1 = k ∧ p.2 = none
    · rw [if_pos hp]
      cases hpc : ((p.1 : Int) == c) with
      | false => simpa only [hpc] using ih
      | true =>
        have hc : c = k := by rw [← hp.1]; exact (beq_iff_eq.mp hpc).symm
        simp only [hpc, hp.2, hc, Option.map_some', and_self, if_pos, if_true]
    · rw [if_neg hp]
      cases hpc : ((p.1 : Int) == c) with
      | false => simpa only [hpc] using ih
      | true =>
        have hc : p.1 = c := beq_iff_eq.mp hpc
        have hnc : ¬ (c = k ∧ p.2 = none) := fun h => hp ⟨hc ▸ h.1, h.2⟩
        simp only [hpc, Option.map_some', if_neg hnc]

/-- A slot holding a fragment is never overwritten. -/
theorem writeLine_keeps_some {line : ChopLine} {c : Int} {v : Strip}
    (h : lookupLine line c = some (some v)) (k : Int) (st : Strip) :
    lookupLine (writeLine line k st) c = some (some v) := by
  rw [lookupLine_writeLine, h]
  simp

/-- Folding writes over pairs never clears a filled slot. -/
theorem foldWrite_preserve : ∀ (ps : List (Int × Strip)) (line : ChopLine) {c : Int} {v : Strip},
    lookupLine line c = some (some v) →
    lookupLine (ps.foldl (fun ln p => writeLine ln p.1 p.2) line) c = some (some v) := by
  intro ps
  induction ps with
  | nil => intro line c v h; exact h
  | cons p t ih =>
    intro line c v h
    rw [List.foldl_cons]
    exact ih _ (writeLine_keeps_some h p.1 p.2)

/-- Folding writes with distinct keys over an empty slot stores the paired
fragment. -/
theorem foldWrite_mem : ∀ (ps : List (Int × Strip)) (line : ChopLine) {cs : Int} {frag : Strip},
    (ps.map Prod.fst).Nodup → (cs, frag) ∈ ps → lookupLine line cs = some none →
    lookupLine (ps.foldl (fun ln p => writeLine ln p.1 p.2) line) cs = some (some frag) := by
  intro ps
  induction ps with
  | nil => intro line cs frag _ hmem; exact absurd hmem (List.not_mem_nil _)
  | cons p t ih =>
    intro line cs frag hnd hmem h0
    rw [List.foldl_cons]
    rcases List.mem_cons.mp hmem with heq | hmt
    · rw [← heq]
      refine foldWrite_preserve t _ ?_
      rw [lookupLine_writeLine, h0]
      simp
    · have hpcs : p.1 ≠ cs := by
        intro h
        rw [List.map_cons, List.nodup_cons] at hnd
        exact hnd.1 (h ▸ List.mem_map_of_mem Prod.fst hmt)
      refine ih _ (List.nodup_cons.mp (List.map_cons _ _ _ ▸ hnd)).2 hmt ?_
      rw [lookupLine_writeLine, h0]
      simp [Ne.symm hpcs]

/-- Every slot of a freshly initialized chop row is empty. -/
theorem lookupLine_init : ∀ (l : List Int) {cs : Int}, cs ∈ l →
    lookupLine (l.map (fun cut => (cut, (none : Option Strip)))) cs = some none := by
  intro l
  induction l with
  | nil => intro cs h; exact absurd h (List.not_mem_nil _)
  | cons c t ih =>
    intro cs h
    unfold lookupLine
    rw [List.map_cons, List.find?_cons]
    cases hpc : ((c : Int) == cs) with
    | true => rfl
    | false =>
      have : cs ∈ t := by
        rcases List.mem_cons.mp h with rfl | ht
        · rw [beq_self_eq_true] at hpc; cases hpc
        · exact ht
      exact ih this

/-- `stripDivide` produces one piece per cut position. -/
theorem stripDivide_length (strip : Strip) : ∀ (cuts : List Int) (prev : Int),
    (stripDivide strip prev cuts).length = cuts.length := by
  intro cuts
  induction cuts with
  | nil => intro prev; rfl
  | cons c rest ih => intro prev; simp [stripDivide, ih c]

/-- The piece of `stripDivide` at an index: the slice between the previous
cut position and the indexed one. -/
theorem stripDivide_get (strip : Strip) : ∀ (cuts : List Int) (prev : Int) (k : Nat),
    (stripDivide strip prev cuts)[k]? = cuts[k]?.map (fun c =>
      (strip.drop (if k = 0 then prev else cuts.getD (k - 1) 0).toNat).take
        (c - (if k = 0 then prev else cuts.getD (k - 1) 0)).toNat) := by
  intro cuts
  induction cuts with
  | nil => intro prev k; simp [stripDivide]
  | cons c rest ih =>
    intro prev k
    cases k with
    | zero => simp [stripDivide]
    | succ k' =>
      rw [stripDivide, List.getElem?_cons_succ, List.getElem?_cons_succ, ih c k']
      cases k' with
      | zero => simp
      | succ k'' => simp

/-- Keys of a zip are the left list truncated to the right list's length. -/
theorem zip_map_fst_take : ∀ (l : List α) (l' : List β),
    (l.zip l').map Prod.fst = l.take l'.length := by
  intro l
  induction l with
  | nil => intro l'; simp
  | cons a t ih =>
    intro l'
    cases l' with
    | nil => simp
    | cons b t' => simp [ih t']

/-- Two elements of a strictly increasing list with nothing strictly between
them are adjacent. -/
theorem adj_of_sorted {a b : Int} (hab : a < b) : ∀ (l : List Int), l.Pairwise (· < ·) →
    a ∈ l → b ∈ l → (∀ e ∈ l, e ≤ a ∨ b ≤ e) → (a, b) ∈ l.zip l.tail := by
  intro l
  induction l with
  | nil => intro _ ha; exact absurd ha (List.not_mem_nil _)
  | cons c t ih =>
    intro hs ha hb hno
    cases t with
    | nil =>
      rcases List.mem_singleton.mp ha with rfl
      rcases List.mem_singleton.mp hb with heq
      omega
    | cons d t' =>
      rw [List.tail_cons, List.zip_cons_cons]
      rcases List.mem_cons.mp ha with rfl | hat
      · have hbd : b = d := by
          rcases List.mem_cons.mp hb with rfl | hbt
          · omega
          · rcases List.mem_cons.mp hbt with rfl | hbt'
            · rfl
            · have h1 : a < d := (List.pairwise_cons.mp hs).1 d (List.mem_cons_self _ _)
              have h2 : d < b := (List.pairwise_cons.mp
                (List.pairwise_cons.mp hs).2).1 b hbt'
              rcases hno d (List.mem_cons_of_mem _ (List.mem_cons_self _ _)) with h | h <;>
                omega
        rw [hbd]
        exact List.mem_cons_self _ _
      · have hca : c < a := (List.pairwise_cons.mp hs).1 a hat
        have hbt : b ∈ d :: t' := by
          rcases List.mem_cons.mp hb with rfl | hbt
          · omega
          · exact hbt
        exact List.mem_cons_of_mem _
          (ih (List.pairwise_cons.mp hs).2 hat hbt
            (fun e he => hno e (List.mem_cons_of_mem _ he)))

/-- Rendering a strip into a row whose slot under the widget's span is still
empty fills that slot with the slice of the strip covering it. -/
theorem renderRow_lookup {cl : List Int} (hs : cl.Pairwise (· < ·)) {rr : Region} {x : Int}
    (hx1 : rr.x ≤ x) (hx2 : x < rr.x + rr.width)
    (hm1 : rr.x ∈ cl) (hm2 : rr.x + rr.width ∈ cl)
    {cs ce : Int} (hslot : slotOf cl x = some (cs, ce))
    {line : ChopLine} (h0 : lookupLine line cs = some none) (strip : Strip) :
    ∃ frag, lookupLine (renderRow cl line rr strip) cs = some (some frag) ∧
      frag[(x - cs).toNat]? = strip[(x - rr.x).toNat]? := by
  obtain ⟨cs', ce', hfind, hcs, hce, hpair, hsep⟩ :=
    slot_spec x cl hs rr.x (rr.x + rr.width) hm1 hx1 hm2 hx2
  rw [hslot] at hfind
  injection hfind with hfind
  injection hfind with hfind1 hfind2
  subst hfind1
  subst hfind2
  have hrx_cs : rr.x ≤ cs := by rcases hsep rr.x hm1 with h | h <;> omega
  have hce_top : ce ≤ rr.x + rr.width := by rcases hsep _ hm2 with h | h <;> omega
  have hcs_mem : cs ∈ cl := (List.of_mem_zip hpair).1
  have hce_mem : ce ∈ cl := List.mem_of_mem_tail (List.of_mem_zip hpair).2
  set fc := cl.filter
    (fun cut => decide (rr.x + rr.width ≥ cut) && decide (cut ≥ rr.x)) with hfc_def
  have hcs_fc : cs ∈ fc := List.mem_filter.mpr ⟨hcs_mem, by simp; omega⟩
  have hce_fc : ce ∈ fc := List.mem_filter.mpr ⟨hce_mem, by simp; omega⟩
  have hrx_fc : rr.x ∈ fc := List.mem_filter.mpr ⟨hm1, by simp; omega⟩
  have hfc_sorted : fc.Pairwise (· < ·) := List.Pairwise.sublist (List.filter_sublist _) hs
  have hfc_nodup : fc.Nodup := hfc_sorted.imp ne_of_lt
  have hsep_fc : ∀ e ∈ fc, e ≤ cs ∨ ce ≤ e := fun e he => hsep e (List.mem_filter.mp he).1
  have hmin_fc : ∀ a ∈ fc, rr.x ≤ a := by
    intro a ha
    have := (List.mem_filter.mp ha).2
    simp at this
    omega
  have hhead : fc.head? = some rr.x :=
    sorted_head_eq_min fc (hfc_sorted.imp le_of_lt) rr.x hrx_fc hmin_fc
  have hadj : (cs, ce) ∈ fc.zip fc.tail :=
    adj_of_sorted (by omega) fc hfc_sorted hcs_fc hce_fc hsep_fc
  obtain ⟨k, hk⟩ := List.mem_iff_getElem?.mp hadj
  obtain ⟨hk1, hk2⟩ := List.getElem?_zip_eq_some.mp hk
  have hk2' : fc[k + 1]? = some ce := by rw [← List.getElem?_tail]; exact hk2
  have hk0cs : k = 0 → cs = rr.x := by
    intro hk0
    subst hk0
    rw [List.head?_eq_getElem?, hk1] at hhead
    exact (Option.some_inj.mp hhead.symm).symm
  set cutStrips := (if fc.length ≤ 2 then [strip]
    else stripDivide strip 0 ((fc.drop 1).map (fun cut => cut - rr.x))) with hcst_def
  have hrr : renderRow cl line rr strip =
      (fc.zip cutStrips).foldl (fun ln p => writeLine ln p.1 p.2) line := rfl
  by_cases hlen : fc.length ≤ 2
  · have hk1lt := List.getElem?_eq_some_iff.mp hk2' |>.1
    have hk0 : k = 0 := by omega
    subst hk0
    have hcseq : cs = rr.x := hk0cs rfl
    have hps : (fc.zip cutStrips)[0]? = some (cs, strip) := by
      refine List.getElem?_zip_eq_some.mpr ⟨hk1, ?_⟩
      rw [hcst_def, if_pos hlen]
      rfl
    have hmemps : (cs, strip) ∈ fc.zip cutStrips := List.getElem?_mem hps
    have hnd : ((fc.zip cutStrips).map Prod.fst).Nodup := by
      rw [zip_map_fst_take]
      exact List.Nodup.sublist (List.take_sublist _ _) hfc_nodup
    refine ⟨strip, ?_, ?_⟩
    · rw [hrr]
      exact foldWrite_mem _ line hnd hmemps h0
    · rw [hcseq]
  · have hlen3 : 2 < fc.length := by omega
    have hcuts_get : ((fc.drop 1).map (fun cut => cut - rr.x))[k]? = some (ce - rr.x) := by
      rw [List.getElem?_map, List.getElem?_drop]
      rw [Nat.add_comm 1 k, hk2']
      rfl
    have hklt : k < ((fc.drop 1).map (fun cut => cut - rr.x)).length := by
      rw [List.length_map, List.length_drop]
      have := List.getElem?_eq_some_iff.mp hk2' |>.1
      omega
    have hprev : (if k = 0 then (0 : Int)
        else ((fc.drop 1).map (fun cut => cut - rr.x)).getD (k - 1) 0) = cs - rr.x := by
      cases k with
      | zero =>
        rw [if_pos rfl, hk0cs rfl]
        omega
      | succ k' =>
        rw [if_neg (Nat.succ_ne_zero k')]
        have hcuts_get' : ((fc.drop 1).map (fun cut => cut - rr.x))[k']? = some (cs - rr.x) := by
          rw [List.getElem?_map, List.getElem?_drop, Nat.add_comm 1 k', hk1]
          rfl
        rw [List.getD_eq_getElem?_getD, Nat.succ_sub_one, hcuts_get']
        rfl
    have hpiece : cutStrips[k]? = some
        ((strip.drop (cs - rr.x).toNat).take ((ce - rr.x) - (cs - rr.x)).toNat) := by
      rw [hcst_def, if_neg hlen, stripDivide_get, hcuts_get, hprev]
      rfl
    have hps : (fc.zip cutStrips)[k]? = some
        (cs, (strip.drop (cs - rr.x).toNat).take ((ce - rr.x) - (cs - rr.x)).toNat) :=
      List.getElem?_zip_eq_some.mpr ⟨hk1, hpiece⟩
    have hmemps := List.getElem?_mem hps
    have hnd : ((fc.zip cutStrips).map Prod.fst).Nodup := by
      rw [zip_map_fst_take]
      exact List.Nodup.sublist (List.take_sublist _ _) hfc_nodup
    refine ⟨(strip.drop (cs - rr.x).toNat).take ((ce - rr.x) - (cs - rr.x)).toNat, ?_, ?_⟩
    · rw [hrr]
      exact foldWrite_mem _ line hnd hmemps h0
    · rw [List.getElem?_take_of_lt (by omega), List.getElem?_drop]
      congr 1
      omega

/-- Row updates at other nonnegative keys leave a row's entry unchanged. -/
theorem foldUpd_other (F : Int → Strip → ChopLine → ChopLine) (pred : Int → Bool) :
    ∀ (ps : List (Int × Strip)) (chops : List ChopLine) (y : Int),
    (∀ p ∈ ps, 0 ≤ p.1) → (∀ p ∈ ps, p.1 ≠ y) → 0 ≤ y →
    pyGet (ps.foldl
      (fun ch p => if pred p.1 then pyUpdate ch p.1 (F p.1 p.2) else ch) chops) y
      = pyGet chops y := by
  intro ps
  induction ps with
  | nil => intro chops y _ _ _; rfl
  | cons p t ih =>
    intro chops y hpos hne hy
    rw [List.foldl_cons,
      ih _ y (fun q hq => hpos q (List.mem_cons_of_mem _ hq))
        (fun q hq => hne q (List.mem_cons_of_mem _ hq)) hy]
    by_cases hp : pred p.1 = true
    · rw [if_pos hp,
        pyUpdate_get_other (hpos p (List.mem_cons_self _ _)) hy
          (hne p (List.mem_cons_self _ _)) _]
    · rw [if_neg hp]

/-- With distinct nonnegative row keys, the fold applies the matching pair's
row function to the original entry. -/
theorem foldUpd_get (F : Int → Strip → ChopLine → ChopLine) (pred : Int → Bool) :
    ∀ (ps : List (Int × Strip)) (chops : List ChopLine) (y : Int) (strip : Strip),
    (ps.map Prod.fst).Nodup → (∀ p ∈ ps, 0 ≤ p.1) → (y, strip) ∈ ps → pred y = true →
    pyGet (ps.foldl
      (fun ch p => if pred p.1 then pyUpdate ch p.1 (F p.1 p.2) else ch) chops) y
      = (pyGet chops y).map (F y strip) := by
  intro ps
  induction ps with
  | nil => intro _ _ _ _ _ hmem; exact absurd hmem (List.not_mem_nil _)
  | cons p t ih =>
    intro chops y strip hnd hpos hmem hpred
    have hy : 0 ≤ y := hpos (y, strip) hmem
    rw [List.foldl_cons]
    rcases List.mem_cons.mp hmem with heq | hmt
    · rw [← heq]
      rw [if_pos hpred]
      have hkeys : ∀ q ∈ t, q.1 ≠ y := by
        intro q hq hqy
        rw [List.map_cons, List.nodup_cons] at hnd
        have h1 : q.1 ∈ t.map Prod.fst := List.mem_map_of_mem Prod.fst hq
        rw [hqy] at h1
        have hp1 : p.1 = y := by rw [← heq]
        rw [← hp1] at h1
        exact hnd.1 h1
      rw [foldUpd_other F pred t _ y (fun q hq => hpos q (List.mem_cons_of_mem _ hq))
        hkeys hy]
      exact pyUpdate_get_self hy _
    · have hpy : p.1 ≠ y := by
        intro h
        rw [List.map_cons, List.nodup_cons] at hnd
        exact hnd.1 (h ▸ List.mem_map_of_mem Prod.fst hmt)
      have hnd' : (t.map Prod.fst).Nodup := by
        rw [List.map_cons, List.nodup_cons] at hnd
        exact hnd.2
      by_cases hp : pred p.1 = true
      · rw [if_pos hp,
          ih _ y strip hnd' (fun q hq => hpos q (List.mem_cons_of_mem _ hq)) hmt hpred,
          pyUpdate_get_other (hpos p (List.mem_cons_self _ _)) hy hpy]
      · rw [if_neg hp,
          ih _ y strip hnd' (fun q hq => hpos q (List.mem_cons_of_mem _ hq)) hmt hpred]

/-- Any property of rows preserved by `renderRow`-shaped functions survives
the row-update fold. -/
theorem foldUpd_preserveP (F : Int → Strip → ChopLine → ChopLine) (pred : Int → Bool)
    (P : ChopLine → Prop) (hF : ∀ r s line, P line → P (F r s line)) :
    ∀ (ps : List (Int × Strip)) (chops : List ChopLine) (j : Nat),
    (∀ line, chops[j]? = some line → P line) →
    ∀ line, (ps.foldl
      (fun ch p => if pred p.1 then pyUpdate ch p.1 (F p.1 p.2) else ch) chops)[j]? =
        some line → P line := by
  intro ps
  induction ps with
  | nil => intro chops j hj line h; exact hj line h
  | cons p t ih =>
    intro chops j hj line h
    rw [List.foldl_cons] at h
    refine ih _ j ?_ line h
    intro line' h'
    by_cases hp : pred p.1 = true
    · rw [if_pos hp] at h'
      exact pyUpdate_preserveP p.1 _ (hF p.1 p.2) j hj line' h'
    · rw [if_neg hp] at h'
      exact hj line' h'

/-- The scheduled row of the first processed item receives the rendering of
that item's strip for the row. -/
theorem applyItem_get {cuts : List (List Int)} {pred : Int → Bool} {chops : List ChopLine}
    {item : RenderItem} {y : Int}
    (hy0 : 0 ≤ (item.region.intersection item.clip).y)
    (hy1 : (item.region.intersection item.clip).y ≤ y)
    (hy2 : y < (item.region.intersection item.clip).y +
      (item.region.intersection item.clip).height)
    (hpred : pred y = true)
    (hlen : item.strips.length = (item.region.intersection item.clip).height.toNat) :
    ∃ strip_y,
      item.strips[(y - (item.region.intersection item.clip).y).toNat]? = some strip_y ∧
      pyGet (applyItem cuts pred chops item) y =
        (pyGet chops y).map
          (fun line =>
            renderRow (pyGetD cuts y []) line (item.region.intersection item.clip) strip_y) := by
  set rr := item.region.intersection item.clip with hrrdef
  set rows := (List.range rr.height.toNat).map (fun (i : Nat) => rr.y + (i : Int)) with hrowsdef
  have hk : (y - rr.y).toNat < item.strips.length := by
    rw [hlen]; omega
  obtain ⟨strip_y, hsy⟩ : ∃ s, item.strips[(y - rr.y).toNat]? = some s :=
    ⟨_, List.getElem?_eq_getElem hk⟩
  refine ⟨strip_y, hsy, ?_⟩
  have hrows_get : rows[(y - rr.y).toNat]? = some y := by
    rw [hrowsdef, List.getElem?_map, List.getElem?_range (by omega)]
    simp only [Option.map_some']
    congr 1
    omega
  have hps : (rows.zip item.strips)[(y - rr.y).toNat]? = some (y, strip_y) :=
    List.getElem?_zip_eq_some.mpr ⟨hrows_get, hsy⟩
  have hmem := List.getElem?_mem hps
  have hnd : ((rows.zip item.strips).map Prod.fst).Nodup := by
    rw [zip_map_fst_take]
    refine List.Nodup.sublist (List.take_sublist _ _) ?_
    rw [hrowsdef]
    refine List.Nodup.map ?_ (List.nodup_range _)
    intro a b hab
    have hab' : rr.y + (a : Int) = rr.y + (b : Int) := hab
    omega
  have hpos : ∀ p ∈ rows.zip item.strips, 0 ≤ p.1 := by
    intro p hp
    have h1 := (List.of_mem_zip hp).1
    rw [hrowsdef] at h1
    obtain ⟨i, _, hi⟩ := List.mem_map.mp h1
    omega
  exact foldUpd_get
    (fun r s line => renderRow (pyGetD cuts r []) line rr s)
    pred _ chops y strip_y hnd hpos hmem hpred

/-- Filled slots survive the remaining items of the render fold. -/
theorem foldItems_preserveP (cuts : List (List Int)) (pred : Int → Bool)
    (P : ChopLine → Prop)
    (hP : ∀ cl line rr strip, P line → P (renderRow cl line rr strip)) :
    ∀ (items : List RenderItem) (chops : List ChopLine) (j : Nat),
    (∀ line, chops[j]? = some line → P line) →
    ∀ line, (items.foldl (applyItem cuts pred) chops)[j]? = some line → P line := by
  intro items
  induction items with
  | nil => intro chops j hj line h; exact hj line h
  | cons it t ih =>
    intro chops j hj line h
    rw [List.foldl_cons] at h
    refine ih _ j ?_ line h
    intro line' h'
    exact foldUpd_preserveP
      (fun r s ln => renderRow (pyGetD cuts r []) ln (it.region.intersection it.clip) s)
      pred P (fun r s ln hl => hP _ ln _ _ hl) _ chops j hj line' h'

/-- The row-update fold preserves the number of rows. -/
theorem foldUpd_length (F : Int → Strip → ChopLine → ChopLine) (pred : Int → Bool) :
    ∀ (ps : List (Int × Strip)) (chops : List ChopLine),
    (ps.foldl
      (fun ch p => if pred p.1 then pyUpdate ch p.1 (F p.1 p.2) else ch) chops).length =
      chops.length := by
  intro ps
  induction ps with
  | nil => intro chops; rfl
  | cons p t ih =>
    intro chops
    rw [List.foldl_cons, ih]
    by_cases hp : pred p.1 = true
    · rw [if_pos hp, pyUpdate_length]
    · rw [if_neg hp]

/-- One item preserves the number of rows. -/
theorem applyItem_length (cuts : List (List Int)) (pred : Int → Bool)
    (chops : List ChopLine) (item : RenderItem) :
    (applyItem cuts pred chops item).length = chops.length := by
  unfold applyItem
  exact foldUpd_length
    (fun r s line => renderRow (pyGetD cuts r []) line (item.region.intersection item.clip) s)
    pred _ chops

/-- The item fold preserves the number of rows. -/
theorem foldItems_length (cuts : List (List Int)) (pred : Int → Bool) :
    ∀ (items : List RenderItem) (chops : List ChopLine),
    (items.foldl (applyItem cuts pred) chops).length = chops.length := by
  intro items
  induction items with
  | nil => intro chops; rfl
  | cons it t ih =>
    intro chops
    rw [List.foldl_cons, ih]
    exact applyItem_length cuts pred chops it

/-- When the frontmost visible widget passes the opacity and crop filters, it
is the first item the render generator yields, asked for its visible
rectangle. -/
theorem getRenders_head {env : WEnv} {c : CState} {crop : Region}
    {A : Nat} {rA cA : Region} {restW : List (Nat × Region × Region)}
    (hvw : visibleWidgets c = (A, rA, cA) :: restW)
    (hop : env.opacityPos A = true)
    (hov : crop.isTrue = true → crop.overlaps cA = true)
    (hne : (rA.intersection cA).isTrue = true) :
    ∃ rest, getRenders env c (some crop) =
      ⟨A, rA, cA, requestOf rA cA, env.render A (requestOf rA cA)⟩ :: rest := by
  simp only [getRenders, hvw]
  by_cases hct : crop.isTrue = true
  · rw [if_pos hct, List.filter_cons,
      if_pos (show (crop.overlaps (A, rA, cA).2.2 && env.opacityPos (A, rA, cA).1) = true by
        rw [hov hct, hop]; rfl),
      List.filterMap_cons]
    by_cases hcr : cA.containsRegion rA = true
    · rw [if_pos hcr]
      unfold requestOf
      rw [if_pos hcr]
      exact ⟨_, rfl⟩
    · rw [if_neg hcr, if_pos hne]
      unfold requestOf
      rw [if_neg hcr]
      exact ⟨_, rfl⟩
  · rw [if_neg hct, List.filter_cons,
      if_pos (show (env.opacityPos (A, rA, cA).1 = true) from hop),
      List.filterMap_cons]
    by_cases hcr : cA.containsRegion rA = true
    · rw [if_pos hcr]
      unfold requestOf
      rw [if_pos hcr]
      exact ⟨_, rfl⟩
    · rw [if_neg hcr, if_pos hne]
      unfold requestOf
      rw [if_neg hcr]
      exact ⟨_, rfl⟩

/-- C3 (amended): the spec's claim holds for the *frontmost* visible widget:
when `A` heads the visible-widget order, passes the opacity and crop
filters, its visible rectangle lies inside the screen, and its rendered
strips have the requested shape, then every scheduled cell of that
rectangle shows `A`'s rendered content — `A`'s fragments are written first
and never overwritten, so `A` obscures every later (deeper) widget there. -/
theorem C3_frontmost_owns_cell (env : WEnv) (c : CState) (crop : Region)
    (pred : Int → Bool) (A : Nat) (rA cA : Region)
    (restW : List (Nat × Region × Region)) (x y : Int)
    (hvw : visibleWidgets c = (A, rA, cA) :: restW)
    (hop : env.opacityPos A = true)
    (hov : crop.isTrue = true → crop.overlaps cA = true)
    (hscr : c.size.region.containsRegion (rA.intersection cA) = true)
    (hpt : (rA.intersection cA).containsPt x y = true)
    (hpred : pred y = true)
    (hslen : (env.render A (requestOf rA cA)).length = (rA.intersection cA).height.toNat)
    (hswid : ∀ s ∈ env.render A (requestOf rA cA),
      s.length = (rA.intersection cA).width.toNat) :
    ∃ row cell,
      (env.render A (requestOf rA cA))[(y - (rA.intersection cA).y).toNat]? = some row ∧
      row[(x - (rA.intersection cA).x).toNat]? = some cell ∧
      cellAt (cutsOf c) (renderChops env c crop pred) x y = some cell := by
  obtain ⟨hpx1, hpx2, hpy1, hpy2⟩ := containsPt_iff.mp hpt
  have hscrc := containsRegion_iff.mp hscr
  simp only [Size.region] at hscrc
  have h0y : 0 ≤ y := by omega
  have hyh : y < c.size.height := by omega
  have hne : (rA.intersection cA).isTrue = true := isTrue_of_containsPt hpt
  obtain ⟨restI, hgr⟩ := getRenders_head hvw hop hov hne
  have hcg : pyGet (cutsOf c) y = some (cutsRow c y.toNat) := by
    rw [pyGet_nonneg h0y]
    unfold cutsOf
    rw [List.getElem?_map, List.getElem?_range (by omega), Option.map_some']
  have hcl_sorted := cutsRow_sorted c y.toNat
  have hedge : (rA.intersection cA).x ∈ cutsRow c y.toNat ∧
      (rA.intersection cA).x + (rA.intersection cA).width ∈ cutsRow c y.toNat :=
    edge_mem_cutsRow c y.toNat (A, rA, cA) (by rw [hvw]; exact List.mem_cons_self _ _)
      hne hscr
      (by show (rA.intersection cA).y ≤ ((y.toNat : Nat) : Int); omega)
      (by show ((y.toNat : Nat) : Int) <
            (rA.intersection cA).y + (rA.intersection cA).height
          omega)
  obtain ⟨cs, ce, hslot, hcs, hce, hpair, hsep⟩ :=
    slot_spec x (cutsRow c y.toNat) hcl_sorted (rA.intersection cA).x
      ((rA.intersection cA).x + (rA.intersection cA).width) hedge.1 (by omega) hedge.2
      (by omega)
  have hcs_dl : cs ∈ (cutsRow c y.toNat).dropLast :=
    mem_dropLast_of_lt hcl_sorted (List.of_mem_zip hpair).1
      (List.mem_of_mem_tail (List.of_mem_zip hpair).2) (by omega)
  have hch0 : pyGet ((cutsOf c).map
      (fun cs => cs.dropLast.map (fun cut => (cut, (none : Option Strip))))) y =
      some ((cutsRow c y.toNat).dropLast.map (fun cut => (cut, (none : Option Strip)))) := by
    rw [pyGet_nonneg h0y, List.getElem?_map]
    have hcg' : (cutsOf c)[y.toNat]? = some (cutsRow c y.toNat) := by
      rw [← pyGet_nonneg h0y]
      exact hcg
    rw [hcg', Option.map_some']
  have h00 : lookupLine
      ((cutsRow c y.toNat).dropLast.map (fun cut => (cut, (none : Option Strip)))) cs =
      some none := lookupLine_init _ hcs_dl
  obtain ⟨strip_y, hsy, happ⟩ := @applyItem_get (cutsOf c) pred
    ((cutsOf c).map (fun cs => cs.dropLast.map (fun cut => (cut, (none : Option Strip)))))
    ⟨A, rA, cA, requestOf rA cA, env.render A (requestOf rA cA)⟩ y
    (by simpa using (by omega : (0 : Int) ≤ (rA.intersection cA).y))
    (by simpa using (by omega : (rA.intersection cA).y ≤ y))
    (by simpa using (by omega :
      y < (rA.intersection cA).y + (rA.intersection cA).height))
    hpred (by simpa using hslen)
  have hsy' : (env.render A (requestOf rA cA))[(y - (rA.intersection cA).y).toNat]? =
      some strip_y := hsy
  have happ' : pyGet (applyItem (cutsOf c) pred
      ((cutsOf c).map (fun cs => cs.dropLast.map (fun cut => (cut, (none : Option Strip)))))
      ⟨A, rA, cA, requestOf rA cA, env.render A (requestOf rA cA)⟩) y =
      some (renderRow (cutsRow c y.toNat)
        ((cutsRow c y.toNat).dropLast.map (fun cut => (cut, (none : Option Strip))))
        (rA.intersection cA) strip_y) := by
    have hgd : pyGetD (cutsOf c) y [] = cutsRow c y.toNat := by
      unfold pyGetD
      rw [hcg]
      rfl
    rw [happ, hch0, Option.map_some']
    have : (renderRow (pyGetD (cutsOf c) y [])
        ((cutsRow c y.toNat).dropLast.map (fun cut => (cut, (none : Option Strip))))
        (rA.intersection cA) strip_y) = (renderRow (cutsRow c y.toNat)
        ((cutsRow c y.toNat).dropLast.map (fun cut => (cut, (none : Option Strip))))
        (rA.intersection cA) strip_y) := by rw [hgd]
    exact congrArg some this
  obtain ⟨frag, hfrag, hfragidx⟩ := renderRow_lookup hcl_sorted (by omega) (by omega)
    hedge.1 hedge.2 hslot h00 strip_y
  have hcell_lt : (x - (rA.intersection cA).x).toNat < strip_y.length := by
    rw [hswid strip_y (List.getElem?_mem hsy')]
    omega
  obtain ⟨cell, hcell⟩ : ∃ cell, strip_y[(x - (rA.intersection cA).x).toNat]? = some cell :=
    ⟨_, List.getElem?_eq_getElem hcell_lt⟩
  refine ⟨strip_y, cell, hsy', hcell, ?_⟩
  have hrc : renderChops env c crop pred =
      restI.foldl (applyItem (cutsOf c) pred)
        (applyItem (cutsOf c) pred
          ((cutsOf c).map
            (fun cs => cs.dropLast.map (fun cut => (cut, (none : Option Strip)))))
          ⟨A, rA, cA, requestOf rA cA, env.render A (requestOf rA cA)⟩) := by
    show (getRenders env c (some crop)).foldl (applyItem (cutsOf c) pred) _ = _
    rw [hgr, List.foldl_cons]
  have hbase : ∀ line, (applyItem (cutsOf c) pred
      ((cutsOf c).map (fun cs => cs.dropLast.map (fun cut => (cut, (none : Option Strip)))))
      ⟨A, rA, cA, requestOf rA cA, env.render A (requestOf rA cA)⟩)[y.toNat]? = some line →
      lookupLine line cs = some (some frag) := by
    intro line h
    rw [← pyGet_nonneg h0y, happ'] at h
    rw [← Option.some_inj.mp h]
    exact hfrag
  have hPrr : ∀ (cl' : List Int) (line : ChopLine) (rr' : Region) (strip' : Strip),
      lookupLine line cs = some (some frag) →
      lookupLine (renderRow cl' line rr' strip') cs = some (some frag) := by
    intro cl' line rr' strip' h
    unfold renderRow
    exact foldWrite_preserve _ _ h
  have hlenF : (renderChops env c crop pred).length = (List.range c.size.height.toNat).length := by
    rw [hrc, foldItems_length, applyItem_length, List.length_map]
    unfold cutsOf
    rw [List.length_map]
  obtain ⟨lineF, hlineF⟩ : ∃ l, (renderChops env c crop pred)[y.toNat]? = some l := by
    refine ⟨_, List.getElem?_eq_getElem ?_⟩
    rw [hlenF, List.length_range]
    omega
  have hPF : lookupLine lineF cs = some (some frag) := by
    refine foldItems_preserveP (cutsOf c) pred _ hPrr restI _ y.toNat hbase lineF ?_
    rw [← hrc]
    exact hlineF
  have hchF : pyGet (renderChops env c crop pred) y = some lineF := by
    rw [pyGet_nonneg h0y]
    exact hlineF
  show cellAt (cutsOf c) (renderChops env c crop pred) x y = some cell
  unfold cellAt
  rw [hcg, hchF]
  simp only [hslot, hPF]
  rw [hfragidx, hcell]

/-- Witness for C3: applied to `cThree`, whose frontmost widget `3` owns cell
`(1, 1)` of the rendered screen. -/
theorem C3_frontmost_owns_cell_witness :
    ∃ row cell,
      (envTag.render 3 (requestOf ⟨0, 0, 3, 2⟩ ⟨0, 0, 3, 2⟩))[(1 : Nat)]? = some row ∧
      row[(1 : Nat)]? = some cell ∧
      cellAt (cutsOf cThree) (renderChops envTag cThree ⟨0, 0, 3, 2⟩ (fun _ => true)) 1 1 =
        some cell :=
  C3_frontmost_owns_cell envTag cThree ⟨0, 0, 3, 2⟩ (fun _ => true) 3 ⟨0, 0, 3, 2⟩
    ⟨0, 0, 3, 2⟩ [(1, ⟨0, 0, 3, 2⟩, ⟨0, 0, 3, 2⟩), (2, ⟨0, 0, 3, 2⟩, ⟨0, 0, 3, 2⟩)] 1 1
    (by decide) (by decide) (fun _ => by decide) (by decide) (by decide) (by decide)
    (by decide) (by decide)
